import Mathlib

set_option maxRecDepth 4000

/-!
Shallow embedding of the bitris-commands core: pattern generation
(`src/patterns.rs`), fuzzy shape orders
(`src/internals/fuzzy_shape_order.rs`), and the all-PCs aggregation
engine with its reachability oracle (`src/all_pcs/aggregator.rs`).
Machine integers (`u64` masks) are modelled as `Nat` with explicit
`% 2 ^ 64` where two's-complement casts matter; external collaborators
(the `bitris` board primitives and movement rules) are abstract
parameters of the embedding.
-/

namespace BC

/-- Number of set bits of a 64-bit value (models `u64::count_ones`,
used by `Lines::count`). -/
def popCount (n : Nat) : Nat :=
  ((List.range 64).filter (fun i => n.testBit i)).length

/-- Number of trailing zero bits of a 64-bit value (models
`u64::trailing_zeros`; 64 on 0). -/
def trailingZeros (n : Nat) : Nat :=
  ((List.range 64).find? (fun i => n.testBit i)).getD 64

/-- Row bitmask: one bit per board row (models the external `Lines` type). -/
abbrev Lines : Type := Nat

/-- Models `Lines::filled_up_to(y)`: the mask of all rows strictly below `y`. -/
def filledUpTo (y : Nat) : Lines := 2 ^ y - 1

/-- Models the lowest-set-bit isolation `rest2 & (-(rest2 as i64)) as u64`
from `Aggregator::ok2`; the `as u64` cast of the two's-complement negation
is written out as `(2 ^ 64 - x) % 2 ^ 64`. -/
def lowBitU64 (x : Nat) : Nat := x &&& ((2 ^ 64 - x) % 2 ^ 64)

/-- Models the initial full mask `(1u64 << results.len()) - 1` from
`Aggregator::ok`. -/
def fullMaskU64 (n : Nat) : Nat := (1 <<< n) - 1

/-- The seven tetromino shapes (external `bitris::pieces::Shape`). -/
inductive Shape : Type
  | T | I | O | L | J | S | Z
deriving DecidableEq, Repr, Fintype

/-- Enumeration order of `Shape::all_iter()`. -/
def allShapes : List Shape := [.T, .I, .O, .L, .J, .S, .Z]

/-- Piece orientations (external `bitris::Orientation`). -/
inductive Orientation : Type
  | north | east | south | west
deriving DecidableEq, Repr

/-- A shape together with an orientation (external `bitris::Piece`). -/
structure Piece : Type where
  shape : Shape
  orientation : Orientation
deriving DecidableEq, Repr

/-- Bottom-left board position (external `bitris::BlPosition`), as x/y. -/
abbrev BlPosition : Type := Int × Int

/-- A piece at a bottom-left position (external `bitris::BlPlacement`). -/
structure BlPlacement : Type where
  piece : Piece
  position : BlPosition
deriving DecidableEq, Repr

/-- Movement permissions (external `bitris::AllowMove`). -/
inductive AllowMove : Type
  | softdrop | harddrop
deriving DecidableEq, Repr

/-- Kick tables available to the aggregator (external; only the SRS table
is ever constructed by the code under verification). -/
inductive KickTableKind : Type
  | srsKickTable
deriving DecidableEq, Repr

/-- Movement rules (external `bitris::MoveRules`): a kick table plus an
allow-move mode. -/
structure MoveRulesModel : Type where
  kickTable : KickTableKind
  allowMove : AllowMove
deriving DecidableEq, Repr

/-- Models `MoveRules::srs(allow_move)`. -/
def MoveRulesModel.srs (allowMove : AllowMove) : MoveRulesModel :=
  { kickTable := .srsKickTable, allowMove := allowMove }

/-- Modelled from the spec: `ShapeCounter` (`src/shape_counter.rs` is not
part of the sources under verification) is a mapping from shape to
non-negative count. -/
def ShapeCounter : Type := Shape → Nat

/-- Modelled from the spec: `ShapeCounter::len()`, the total number of
shapes counted (multiset size). -/
def ShapeCounter.size (c : ShapeCounter) : Nat := (allShapes.map c).sum

/-- Modelled from the spec: `contains_all(other)` holds iff every shape's
count in `self` is at least the corresponding count in `other`. -/
def ShapeCounter.containsAll (c other : ShapeCounter) : Bool :=
  allShapes.all (fun s => other s ≤ c s)

/-- Modelled from the spec: the expansion
`counter.to_pairs().into_iter().flat_map(|(shape, count)| repeat_n(shape, count))`
of a shape multiset into the list of its shapes, in enumeration order. -/
def ShapeCounter.toShapeList (c : ShapeCounter) : List Shape :=
  allShapes.flatMap (fun s => List.replicate (c s) s)

/-- Modelled from the spec: `ShapeCounter::from(shapes)`, counting the
occurrences of each shape in a list. -/
def shapeCounterOf (shapes : List Shape) : ShapeCounter :=
  fun s => shapes.count s

/-- Modelled from the spec: `BitShapes` (`src/bit_shapes.rs` is not part of
the sources under verification) denotes a fixed finite sequence of shapes
with `to_vec` and `len`. -/
structure BitShapes : Type where
  toShapeList : List Shape
deriving DecidableEq, Repr

/-- Models `BitShapes::len()`. -/
def BitShapes.len (b : BitShapes) : Nat := b.toShapeList.length

/-- Models `calculate_permutation_size(len, pop)` from `src/patterns.rs`:
the product `((len - pop + 1)..=len).fold(1, |sum, it| sum * it)`. The two
`assert!` preconditions (`pop <= len`, `0 < pop`) are modelled by returning
`none` (a panic) when violated. -/
def calculatePermutationSize (len pop : Nat) : Option Nat :=
  if pop ≤ len then
    if 0 < pop then some ((List.range' (len - pop + 1) pop).prod) else none
  else none

/-- All ways to pick one element out of a list, returning the element and
the remaining list in order (helper for modelling itertools
`permutations(k)`). -/
def selections {α : Type} : List α → List (α × List α)
  | [] => []
  | x :: xs => (x, xs) :: (selections xs).map (fun p => (p.1, x :: p.2))

/-- Models itertools `permutations(k)`: all ordered selections of `k`
elements (by position, so duplicate values are kept) from a list, in
lexicographic order of the chosen positions. -/
def kpermutations {α : Type} : Nat → List α → List (List α)
  | 0, _ => [[]]
  | k + 1, l => (selections l).flatMap (fun p => (kpermutations k p.2).map (p.1 :: ·))

/-- Models the `PatternElement` enum from `src/patterns.rs`. -/
inductive PatternElement : Type
  | one (shape : Shape)
  | fixed (shapes : BitShapes)
  | wildcard
  | permutation (counter : ShapeCounter) (pop : Nat)
  | factorial (counter : ShapeCounter)

/-- Models `PatternElement::to_shapes_vec`; the `assert!` in the
`Permutation` arm is modelled by `none` (a panic). -/
def PatternElement.toShapesVec : PatternElement → Option (List (List Shape))
  | .one shape => some [[shape]]
  | .fixed shapes => some [shapes.toShapeList]
  | .wildcard => some (allShapes.map (fun it => [it]))
  | .permutation counter pop =>
      if 0 < pop ∧ pop ≤ counter.size then
        some (kpermutations pop counter.toShapeList)
      else none
  | .factorial counter => some (kpermutations counter.size counter.toShapeList)

/-- Models `PatternElement::len_shapes_vec`; the `assert!`s (in the
`Permutation` arm and inside `calculate_permutation_size`) are modelled by
`none` (a panic). -/
def PatternElement.lenShapesVec : PatternElement → Option Nat
  | .one _ => some 1
  | .fixed _ => some 1
  | .wildcard => some 7
  | .permutation counter pop =>
      if 0 < pop ∧ pop ≤ counter.size then
        calculatePermutationSize counter.size pop
      else none
  | .factorial counter => calculatePermutationSize counter.size counter.size

/-- Models `PatternElement::dim_shapes`; the `assert!` in the `Permutation`
arm is modelled by `none` (a panic). -/
def PatternElement.dimShapes : PatternElement → Option Nat
  | .one _ => some 1
  | .fixed shapes => some shapes.len
  | .wildcard => some 1
  | .permutation counter pop =>
      if 0 < pop ∧ pop ≤ counter.size then some pop else none
  | .factorial counter => some counter.size

/-- Collect a list of optional values, propagating `none` (a panic while
expanding one element poisons the whole walk). -/
def collectSome {α : Type} : List (Option α) → Option (List α)
  | [] => some []
  | none :: _ => none
  | some x :: rest => (collectSome rest).map (x :: ·)

/-- Models the `Pattern` struct from `src/patterns.rs`. -/
structure Pattern : Type where
  elements : List PatternElement

/-- Models the `PatternCreationError` enum from `src/patterns.rs`. -/
inductive PatternCreationError : Type
  | noShapeSequences
  | containsInvalidPermutation
deriving DecidableEq, Repr

/-- Models the validation loop of `Pattern::try_new`: returns the first
error raised while scanning the elements. -/
def checkElements : List PatternElement → Except PatternCreationError Unit
  | [] => .ok ()
  | element :: rest =>
      match element with
      | .permutation counter pop =>
          if counter.size ≤ 0 ∨ pop ≤ 0 ∨ counter.size < pop then
            .error .containsInvalidPermutation
          else checkElements rest
      | _ => checkElements rest

/-- Models `Pattern::try_new` (also the `TryFrom<Vec<PatternElement>>`
implementation). -/
def Pattern.tryNew (elements : List PatternElement) :
    Except PatternCreationError Pattern :=
  if elements.isEmpty then .error .noShapeSequences
  else
    match checkElements elements with
    | .error e => .error e
    | .ok _ => .ok { elements := elements }

/-- Models the recursive `build` closure inside `Pattern::walk_shapes`:
the remaining per-element expansions are walked in order, extending the
buffer, and the buffer is visited once the last element is reached. -/
def walkBuild : List (List (List Shape)) → List Shape → List (List Shape)
  | [], _ => []
  | [chunk], buffer => chunk.map (fun shapes => buffer ++ shapes)
  | chunk :: rest₂ :: rest, buffer =>
      chunk.flatMap (fun shapes => walkBuild (rest₂ :: rest) (buffer ++ shapes))

/-- Models `Pattern::len_shapes_vec`: the product of the elements' counts
(`none` models a panic from an inner `assert!`). -/
def Pattern.lenShapesVec (p : Pattern) : Option Nat :=
  if p.elements.isEmpty then some 0
  else
    match collectSome (p.elements.map PatternElement.lenShapesVec) with
    | none => none
    | some lens => some (lens.foldl (fun sum it => sum * it) 1)

/-- Models `Pattern::dim_shapes`: the sum of the elements' dimensions
(`none` models a panic; the function also asserts a non-empty element
list). -/
def Pattern.dimShapes (p : Pattern) : Option Nat :=
  if p.elements.isEmpty then none
  else
    match collectSome (p.elements.map PatternElement.dimShapes) with
    | none => none
    | some dims => some (dims.foldl (fun sum it => sum + it) 0)

/-- Models `Pattern::to_shapes_vec` together with the `Pattern::walk_shapes`
it calls (the visitor is modelled by collecting the visited sequences in
order); `none` models a panic. An empty pattern returns the empty list;
otherwise, in source order: the capacity `self.len_shapes_vec()` is
computed first — a panic there propagates — then `walk_shapes` expands
each element (`it.to_shapes_vec()`), sizes its buffer with
`self.dim_shapes()`, and runs `build`. -/
def Pattern.toShapesVec (p : Pattern) : Option (List (List Shape)) :=
  if p.elements.isEmpty then some []
  else
    match p.lenShapesVec with
    | none => none
    | some _ =>
        match collectSome (p.elements.map PatternElement.toShapesVec) with
        | none => none
        | some allShapesVec =>
            match p.dimShapes with
            | none => none
            | some _ => some (walkBuild allShapesVec [])

/-- Models `FuzzyShape` from `src/internals/fuzzy_shape.rs`: a known shape
or an unknown position. -/
inductive FuzzyShape : Type
  | known (shape : Shape)
  | unknown
deriving DecidableEq, Repr

/-- Models the recursive `build` closure inside
`FuzzyShapeOrder::expand_as_wildcard_walk` (the visitor is modelled by
collecting the visited buffers in order). The source advances an index
into the full list and stops once `shapes.len() <= index`; here the
not-yet-visited suffix is walked instead, so the first argument is
`shapes.drop(index)` and the empty-suffix case is the visit. -/
def fuzzyBuild : List FuzzyShape → Nat → List Shape → List (List Shape)
  | [], _, buffer => [buffer]
  | fs :: rest, index, buffer =>
      match fs with
      | .known shape => fuzzyBuild rest (index + 1) (buffer.set index shape)
      | .unknown =>
          allShapes.flatMap (fun shape =>
            fuzzyBuild rest (index + 1) (buffer.set index shape))

/-- Models `FuzzyShapeOrder::expand_as_wildcard_walk`: the buffer starts
as `shapes.len()` copies of `T` and each position is overwritten before
being visited; `none` models the `assert!` on an empty order. -/
def expandAsWildcardWalk (shapes : List FuzzyShape) :
    Option (List (List Shape)) :=
  if shapes.isEmpty then none
  else some (fuzzyBuild shapes 0 (List.replicate shapes.length Shape.T))

/-- Models the `IndexNode` enum of the placement dependency graph
(external input to `src/all_pcs/aggregator.rs`). -/
inductive IndexNode : Type
  | toItem (nextItemId : Nat) (itemLength : Nat)
  | toNextIndex (nextIndexId : Nat)
  | complete
  | abort
deriving DecidableEq, Repr

/-- Models an item record of the placement dependency graph: one placement
choice (`predefine_index` packs a piece index and an x offset) and the
index node to continue at. -/
structure ItemModel : Type where
  predefineIndex : Nat
  nextIndexId : Nat
deriving DecidableEq, Repr, Inhabited

/-- Models `Nodes`: the arrays of index nodes and items. -/
structure NodesModel : Type where
  indexes : List IndexNode
  items : List ItemModel

/-- Models `PredefinedPieceToAggregate`: a predefined placement with its
row footprints (only the fields read by `aggregator.rs` are modelled). -/
structure PredefinedPieceToAggregate : Type where
  piece : Piece
  deletedRows : Lines
  usingRows : Lines
  ys : List Nat
  locations : List BlPosition
deriving DecidableEq, Repr

instance : Inhabited PredefinedPieceToAggregate :=
  ⟨{ piece := ⟨.T, .north⟩, deletedRows := 0, usingRows := 0, ys := [], locations := [] }⟩

/-- Abstract interface of the external `bitris` board primitive
(`Board64`) and movement-rule oracle, as consumed by the aggregator. -/
structure BoardOps (B : Type) : Type where
  blank : B
  setAt : B → BlPosition → B
  clearLines : B → B × Lines
  merge : B → B → B
  canReach : MoveRulesModel → BlPlacement → B → BlPlacement → Bool

/-- Models `ClippedBoard`: a board together with a clipped height. -/
structure ClippedBoard (B : Type) : Type where
  board : B
  height : Nat

/-- Models the `Aggregator` struct from `src/all_pcs/aggregator.rs`. -/
structure Aggregator (B : Type) : Type where
  clippedBoard : ClippedBoard B
  indexedPieces : List PredefinedPieceToAggregate
  usingRowsEachY : List Lines
  width : Nat
  nodes : NodesModel
  spawnPosition : BlPosition

/-- Models the `using_rows_each_y` construction loop in `Aggregator::new`:
for each piece index and each row `iy` below the clipped height, push the
piece's `using_rows` when its `deleted_rows` contain `iy`, else blank. -/
def mkUsingRowsEachY (pieces : List PredefinedPieceToAggregate) (height : Nat) :
    List Lines :=
  (List.range pieces.length).flatMap (fun minoIndex =>
    (List.range height).map (fun iy =>
      let mino := pieces.getD minoIndex default
      if mino.deletedRows.testBit iy then mino.usingRows else 0))

/-- Models `Aggregator::new` (the conversion of `IndexedPieces` happens
upstream; the already-converted pieces are taken as input). -/
def Aggregator.new {B : Type} (clippedBoard : ClippedBoard B)
    (indexedPieces : List PredefinedPieceToAggregate) (width : Nat)
    (nodes : NodesModel) (spawnPosition : BlPosition) : Aggregator B :=
  { clippedBoard := clippedBoard, indexedPieces := indexedPieces,
    usingRowsEachY := mkUsingRowsEachY indexedPieces clippedBoard.height,
    width := width, nodes := nodes, spawnPosition := spawnPosition }

/-- Ghost record of one `can_reach` query issued by `Aggregator::ok2`:
the arguments passed to the movement-rule oracle, plus the piece index
and the pre-line-clear board of the issuing call. -/
structure Ok2Query (B : Type) : Type where
  rules : MoveRulesModel
  placement : BlPlacement
  board : B
  spawn : BlPlacement
  pieceIndex : Nat
  preBoard : B
deriving DecidableEq

/-- State threaded through `Aggregator::ok2`: the memo set `visited`
(a hash set in the source, modelled as a list of its elements), plus two
ghost logs — the remaining-masks recursed into and the `can_reach`
queries issued, both in execution order. -/
structure Ok2State (B : Type) : Type where
  visited : List Nat
  recLog : List Nat
  queryLog : List (Ok2Query B)
deriving DecidableEq

/-- Models `Aggregator::ok2` together with its `while rest2 != 0` loop:
`rest2` scans the set bits of `remaining` from the lowest; a piece is
tried when all its `deleted_rows` are covered by `deleted_key`; a
successful reachability query either finishes (last piece), skips an
already-memoized sub-mask, or recurses (modelled by the call with
`rest2 := nextRest` and the merged board). `clear_lines` is pure, so
recomputing `board2`/`deleted_key` from `board_` at every iteration gives
exactly the values the source computes once per `ok2` call. Runs on
explicit fuel (one unit per loop iteration); fuel exhaustion returns
`false` — the source loop and recursion always terminate, as `rest2` and
the remaining mask strictly decrease. -/
def ok2Loop {B : Type} (ops : BoardOps B) (spawnPosition : BlPosition)
    (moveRules : MoveRulesModel)
    (results : List (PredefinedPieceToAggregate × Nat × B)) :
    Nat → B → Nat → Nat → Ok2State B → Bool × Ok2State B
  | 0, _, _, _, st => (false, st)
  | fuel + 1, board_, remaining, rest2, st =>
      let cleared := ops.clearLines board_
      let board2 := cleared.1
      let deletedKey := cleared.2
      if rest2 = 0 then (false, st)
      else
        let bit := lowBitU64 rest2
        let index := trailingZeros bit
        let entry := results.getD index (default, 0, ops.blank)
        let mino := entry.1
        let lx := entry.2.1
        let minoBoard := entry.2.2
        if mino.deletedRows &&& deletedKey = mino.deletedRows then
          let originalBy := mino.ys.headD 0
          let mask := filledUpTo originalBy
          let deletedLines := mask &&& deletedKey
          let by2 : Int := (originalBy : Int) - (popCount deletedLines : Int)
          let placement : BlPlacement := ⟨mino.piece, ((lx : Int), by2)⟩
          let spawn : BlPlacement := ⟨⟨mino.piece.shape, .north⟩, spawnPosition⟩
          let st2 : Ok2State B :=
            { st with queryLog :=
                st.queryLog ++ [⟨moveRules, placement, board2, spawn, index, board_⟩] }
          if ops.canReach moveRules placement board2 spawn then
            let nextRest := remaining - bit
            if nextRest = 0 then (true, st2)
            else if st2.visited.contains nextRest then
              ok2Loop ops spawnPosition moveRules results fuel board_
                remaining (rest2 - bit) st2
            else
              let st3 : Ok2State B :=
                { st2 with visited := nextRest :: st2.visited,
                           recLog := st2.recLog ++ [nextRest] }
              let nextField := ops.merge board_ minoBoard
              match ok2Loop ops spawnPosition moveRules results fuel nextField
                  nextRest nextRest st3 with
              | (true, st4) => (true, st4)
              | (false, st4) =>
                  ok2Loop ops spawnPosition moveRules results fuel board_
                    remaining (rest2 - bit) st4
          else
            ok2Loop ops spawnPosition moveRules results fuel board_
              remaining (rest2 - bit) st2
        else
          ok2Loop ops spawnPosition moveRules results fuel board_
            remaining (rest2 - bit) st

/-- Models the entry of `Aggregator::ok2`: the loop starts with
`rest2 = remaining`. -/
def ok2 {B : Type} (ops : BoardOps B) (spawnPosition : BlPosition)
    (moveRules : MoveRulesModel)
    (results : List (PredefinedPieceToAggregate × Nat × B))
    (fuel : Nat) (board_ : B) (remaining : Nat) (st : Ok2State B) :
    Bool × Ok2State B :=
  ok2Loop ops spawnPosition moveRules results fuel board_ remaining remaining st

/-- Models `Aggregator::ok` but keeps the final oracle state (fresh memo
set, SRS softdrop movement rules, full remaining mask over the clipped
board). -/
def Aggregator.okRun {B : Type} (ag : Aggregator B) (ops : BoardOps B)
    (fuel : Nat) (results : List (PredefinedPieceToAggregate × Nat × B)) :
    Bool × Ok2State B :=
  let moveRules := MoveRulesModel.srs .softdrop
  ok2 ops ag.spawnPosition moveRules results fuel ag.clippedBoard.board
    (fullMaskU64 results.length) ⟨[], [], []⟩

/-- Models `Aggregator::ok`: the boolean verdict of the reachability
oracle. -/
def Aggregator.ok {B : Type} (ag : Aggregator B) (ops : BoardOps B)
    (fuel : Nat) (results : List (PredefinedPieceToAggregate × Nat × B)) :
    Bool :=
  (ag.okRun ops fuel results).1

/-- Models the recursive `Aggregator::aggregate_`: the depth-first walk of
the placement dependency graph. The depth-indexed `filled` table
(`[Lines; 100]` in the source) is modelled as a function from index to
mask, and the `results2` push/pop stack by passing the extended list to
the recursive call. Runs on explicit fuel; fuel exhaustion contributes 0. -/
def aggregateAux {B : Type} (ops : BoardOps B) (ag : Aggregator B)
    (checker : List Shape → Bool) :
    Nat → Nat → Nat → (Nat → Lines) → List Nat → Nat
  | 0, _, _, _, _ => 0
  | fuel + 1, indexId, depth, filled, results2 =>
      match ag.nodes.indexes.getD indexId .abort with
      | .toItem nextItemId itemLength =>
          let height := ag.clippedBoard.height
          (List.range itemLength).foldl (fun success k =>
            let item := ag.nodes.items.getD (nextItemId + k) default
            let minoIndexAndLx := item.predefineIndex
            let minoIndex := minoIndexAndLx / ag.width
            let predefine := ag.indexedPieces.getD minoIndex default
            let s := predefine.ys.foldl
              (fun prev y => prev ||| filled (depth * height + y)) 0
            if ¬(s &&& predefine.deletedRows = 0) then success
            else
              let nextDepth := depth + 1
              let ni := nextDepth * height
              let ci := depth * height
              let hi := minoIndex * height
              let filled2 : Nat → Lines := fun idx =>
                if ni ≤ idx ∧ idx < ni + height then
                  filled (ci + (idx - ni)) ||| ag.usingRowsEachY.getD (hi + (idx - ni)) 0
                else filled idx
              success + aggregateAux ops ag checker fuel item.nextIndexId
                nextDepth filled2 (results2 ++ [minoIndexAndLx])) 0
      | .toNextIndex nextIndexId =>
          aggregateAux ops ag checker fuel nextIndexId depth filled results2
      | .complete =>
          let shapes := results2.map (fun it =>
            (ag.indexedPieces.getD (it / ag.width) default).piece.shape)
          if checker shapes then
            let x := results2.map (fun it =>
              let minoIndex := it / ag.width
              let lx := it % ag.width
              let pre := ag.indexedPieces.getD minoIndex default
              let board := pre.locations.foldl
                (fun merge location => ops.setAt merge (location.1 + (lx : Int), location.2))
                ops.blank
              (pre, lx, board))
            if ag.ok ops fuel x then 1 else 0
          else 0
      | .abort => 0

/-- Models `Aggregator::aggregate`: the default checker accepts every
shape list; the walk starts at index 0, depth 0, with a blank filled
table and an empty candidate. -/
def Aggregator.aggregate {B : Type} (ag : Aggregator B) (ops : BoardOps B)
    (fuel : Nat) : Nat :=
  if ag.nodes.indexes.isEmpty then 0
  else aggregateAux ops ag (fun _ => true) fuel 0 0 (fun _ => 0) []

/-- Models the `PcAggregationChecker` implementation of
`aggregate_with_shape_counters`: a shape list passes iff some
caller-supplied counter `contains_all` its counts. -/
def counterChecker (shapeCounters : List ShapeCounter) (shapes : List Shape) : Bool :=
  shapeCounters.any (fun it => it.containsAll (shapeCounterOf shapes))

/-- Models `Aggregator::aggregate_with_shape_counters`. -/
def Aggregator.aggregateWithShapeCounters {B : Type} (ag : Aggregator B)
    (ops : BoardOps B) (shapeCounters : List ShapeCounter) (fuel : Nat) : Nat :=
  if ag.nodes.indexes.isEmpty then 0
  else aggregateAux ops ag (counterChecker shapeCounters) fuel 0 0 (fun _ => 0) []

/-- Specification-side definition: the Cartesian product, in element
order, of per-element sequence lists, concatenated positionally (used to
compare `Pattern::walk_shapes` against the spec's description). -/
def cartProd (xss : List (List (List Shape))) : List (List Shape) :=
  xss.foldr (fun chunk acc => chunk.flatMap (fun c => acc.map (c ++ ·))) [[]]

/-- Specification-side definition: the Cartesian product over a fuzzy
order — known positions held fixed, unknown positions replaced by each of
the 7 shapes, positions walked left to right. -/
def fuzzyProduct (shapes : List FuzzyShape) : List (List Shape) :=
  shapes.foldr (fun fs acc =>
    match fs with
    | .known s => acc.map (s :: ·)
    | .unknown => allShapes.flatMap (fun s => acc.map (s :: ·))) [[]]

/-- Cells occupied by a predefined piece shifted right by `lx` (the
`locations + offset` computation of the Complete branch, at cell level). -/
def pieceCells (pre : PredefinedPieceToAggregate) (lx : Nat) : List BlPosition :=
  pre.locations.map (fun loc => (loc.1 + (lx : Int), loc.2))

/-- The fully-filled reference board of a clipped `width × height` region,
as a cell list. -/
def fullReferenceBoard (width height : Nat) : List BlPosition :=
  (List.range width).flatMap (fun x =>
    (List.range height).map (fun y => ((x : Int), (y : Int))))

/-- Remove the given cells from a cell-list board. -/
def removeCells (board cells : List BlPosition) : List BlPosition :=
  board.filter (fun c => ¬ cells.contains c)

/-- Drop a cell in a cleared row, and shift a surviving cell down by the
number of cleared rows strictly below it. -/
def shiftAfterClear (rows : Lines) (cell : BlPosition) : Option BlPosition :=
  let yn := cell.2.toNat
  if rows.testBit yn then none
  else some (cell.1, cell.2 - (popCount (filledUpTo yn &&& rows) : Int))

/-- A piece (given by its cells) rests on the board: some cell sits on the
floor or directly above a filled cell. -/
def isLanding (board cells : List BlPosition) : Bool :=
  cells.any (fun c => decide (c.2 ≤ 0) || board.contains (c.1, c.2 - 1))

/-- Modelled from the spec: the structural validity pass that §4.1 step 2
prescribes for an accepted candidate at a `Complete` node (no code under
`src/` implements it). For each piece `p` of the candidate (with its x
offset), if some later-placed piece's `intercepted_rows` (`deleted_rows`)
overlaps `p`'s `using_rows`, those later pieces' cells and `p`'s own cells
are removed from the fully-filled reference board, the rows in `p`'s
`intercepted_rows` are cleared, and `p`'s placement is re-checked for a
valid landing (support) on the resulting board; every piece must pass. -/
def structuralValidityPass (width height : Nat)
    (candidate : List (PredefinedPieceToAggregate × Nat)) : Bool :=
  (List.range candidate.length).all (fun i =>
    let p := candidate.getD i (default, 0)
    let laters := (candidate.drop (i + 1)).filter
      (fun q => ¬ (q.1.deletedRows &&& p.1.usingRows = 0))
    if laters.isEmpty then true
    else
      let board0 := fullReferenceBoard width height
      let board1 := removeCells board0 (laters.flatMap (fun q => pieceCells q.1 q.2))
      let board2 := removeCells board1 (pieceCells p.1 p.2)
      let board3 := board2.filterMap (shiftAfterClear p.1.deletedRows)
      let pcells := (pieceCells p.1 p.2).filterMap (shiftAfterClear p.1.deletedRows)
      isLanding board3 pcells)

/-- A degenerate instance of the external board interface, used to
exercise the engine's control flow on concrete inputs: the board carries
no information, clearing lines always reports rows 0 and 1 as removed,
and every reachability query succeeds. -/
def unitOps : BoardOps Unit :=
  { blank := (), setAt := fun _ _ => (), clearLines := fun _ => ((), 3),
    merge := fun _ _ => (), canReach := fun _ _ _ _ => true }

/-- Concrete predefined piece: a single cell at row 1 (relies on no
cleared rows, occupies row 1). -/
def pieceP : PredefinedPieceToAggregate :=
  { piece := ⟨.T, .north⟩, deletedRows := 0, usingRows := 2, ys := [1],
    locations := [(0, 1)] }

/-- Concrete predefined piece: a single cell at row 0 that requires row 1
to have been cleared first (`deleted_rows` = row 1). -/
def pieceQ : PredefinedPieceToAggregate :=
  { piece := ⟨.I, .north⟩, deletedRows := 2, usingRows := 1, ys := [0],
    locations := [(0, 0)] }

/-- Concrete two-choice dependency graph: choose `pieceP`, then `pieceQ`,
then complete. -/
def exampleNodes : NodesModel :=
  { indexes := [.toItem 0 1, .toItem 1 1, .complete],
    items := [⟨0, 1⟩, ⟨1, 2⟩] }

/-- Concrete aggregator over the degenerate board: width 1, height 2,
pieces `pieceP` and `pieceQ`. -/
def exampleAg : Aggregator Unit :=
  Aggregator.new ⟨(), 2⟩ [pieceP, pieceQ] 1 exampleNodes (0, 10)

/-! Helper lemmas. -/

theorem land_eq_zero_iff (a b : Nat) :
    a &&& b = 0 ↔ ∀ i, ¬ (a.testBit i ∧ b.testBit i) := by
  constructor
  · intro h i hi
    have := congrArg (fun x => Nat.testBit x i) h
    simp [Nat.testBit_land, Nat.zero_testBit, hi.1, hi.2] at this
  · intro h
    apply Nat.eq_of_testBit_eq
    intro i
    simp only [Nat.testBit_land, Nat.zero_testBit]
    by_cases ha : a.testBit i
    · by_cases hb : b.testBit i
      · exact absurd ⟨ha, hb⟩ (h i)
      · simp [hb]
    · simp [ha]

theorem foldl_lor_testBit (g : Nat → Nat) (l : List Nat) :
    ∀ (init : Nat) (r : Nat),
      (l.foldl (fun prev y => prev ||| g y) init).testBit r =
        (init.testBit r || l.any (fun y => (g y).testBit r)) := by
  induction l with
  | nil => simp
  | cons x xs ih =>
      intro init r
      simp only [List.foldl_cons, List.any_cons, ih, Nat.testBit_or]
      rw [Bool.or_assoc]

theorem foldl_add_map_sum (f : Nat → Nat) (l : List Nat) :
    ∀ init : Nat, l.foldl (fun acc k => acc + f k) init = init + (l.map f).sum := by
  induction l with
  | nil => simp
  | cons x xs ih =>
      intro init
      simp only [List.foldl_cons, List.map_cons, List.sum_cons, ih]
      omega

theorem flatMap_getD_uniform {β : Type} (d : β) (g : Nat → List β) (h : Nat)
    (huni : ∀ a, (g a).length = h) :
    ∀ (n st m j : Nat), m < n → j < h →
      ((List.range' st n).flatMap g).getD (m * h + j) d = (g (st + m)).getD j d := by
  intro n
  induction n with
  | zero => intro st m j hm; omega
  | succ k ih =>
      intro st m j hm hj
      rw [List.range'_succ, List.flatMap_cons]
      cases m with
      | zero =>
          simp only [Nat.zero_mul, Nat.zero_add]
          rw [List.getD_append _ _ _ _ (by rw [huni st]; omega)]
          simp
      | succ m₂ =>
          have hlen : (g st).length = h := huni st
          have hge : (g st).length ≤ (m₂ + 1) * h + j := by rw [hlen]; nlinarith
          rw [List.getD_append_right _ _ _ _ hge, hlen]
          have hidx : (m₂ + 1) * h + j - h = m₂ * h + j := by
            have hh : (m₂ + 1) * h = m₂ * h + h := by ring
            omega
          rw [hidx, ih (st + 1) m₂ j (by omega) hj]
          have hst : st + 1 + m₂ = st + (m₂ + 1) := by omega
          rw [hst]

theorem mkUsingRowsEachY_getD (pieces : List PredefinedPieceToAggregate)
    (height m j : Nat) (hm : m < pieces.length) (hj : j < height) :
    (mkUsingRowsEachY pieces height).getD (m * height + j) 0 =
      (if (pieces.getD m default).deletedRows.testBit j then
        (pieces.getD m default).usingRows else 0) := by
  unfold mkUsingRowsEachY
  rw [List.range_eq_range']
  rw [flatMap_getD_uniform 0 _ height (fun a => by simp) pieces.length 0 m j hm hj]
  simp only [Nat.zero_add]
  rw [List.getD_eq_getElem?_getD]
  simp only [List.getElem?_map]
  rw [List.getElem?_range hj]
  simp

/-! Claim C10: the oracle's bitmask arithmetic stays within `u64` for at
most 63 placements, and overflows at 64. -/

/-- C10: for every candidate with `N ≤ 63` pieces, the initial full mask
`(1u64 << N) - 1` and the shift `1u64 << N` are representable in `u64`;
for any non-empty sub-mask `rest2` of a remaining mask bounded by the full
mask, the lowest-set-bit isolation `rest2 & (-(rest2 as i64)) as u64` is
at most `rest2` and at most `remaining` (so `remaining - bit` never
underflows), and `rest2 < 2^63` (so the `i64` negation cannot overflow);
at `N = 64` the shift `1u64 << N` exceeds the `u64` range. -/
theorem ok_u64_arithmetic_bounds :
    (∀ n : Nat, n ≤ 63 → (1 <<< n) < 2 ^ 64 ∧ fullMaskU64 n < 2 ^ 64) ∧
    (∀ n rest2 remaining : Nat, n ≤ 63 → remaining ≤ fullMaskU64 n →
      rest2 &&& remaining = rest2 → rest2 ≠ 0 →
      lowBitU64 rest2 ≤ rest2 ∧ lowBitU64 rest2 ≤ remaining ∧
        lowBitU64 rest2 < 2 ^ 64 ∧ rest2 < 2 ^ 63) ∧
    ¬ ((1 <<< 64) < 2 ^ 64) := by
  refine ⟨?_, ?_, by decide⟩
  · intro n hn
    rw [Nat.shiftLeft_eq, fullMaskU64, Nat.shiftLeft_eq]
    have h1 : (2 : Nat) ^ n ≤ 2 ^ 63 := Nat.pow_le_pow_right (by omega) hn
    have h2 : (2 : Nat) ^ 63 < 2 ^ 64 := by norm_num
    omega
  · intro n rest2 remaining hn hrem hsub hne
    have hle : rest2 ≤ remaining := by
      calc rest2 = rest2 &&& remaining := hsub.symm
        _ ≤ remaining := Nat.and_le_right
    have hlow : lowBitU64 rest2 ≤ rest2 := Nat.and_le_left
    have hmask : fullMaskU64 n < 2 ^ 63 := by
      rw [fullMaskU64, Nat.shiftLeft_eq]
      have h1 : (2 : Nat) ^ n ≤ 2 ^ 63 := Nat.pow_le_pow_right (by omega) hn
      omega
    refine ⟨hlow, le_trans hlow hle, ?_, by omega⟩
    have : (2 : Nat) ^ 63 < 2 ^ 64 := by norm_num
    omega

/-- C10 witness: the bounds applied at a concrete instance
(`N = 5`, `remaining = 7`, `rest2 = 6`). -/
theorem ok_u64_arithmetic_bounds_witness :
    (5 ≤ 63 ∧ 7 ≤ fullMaskU64 5 ∧ 6 &&& 7 = 6 ∧ (6 : Nat) ≠ 0) ∧
    (lowBitU64 6 ≤ 6 ∧ lowBitU64 6 ≤ 7 ∧ lowBitU64 6 < 2 ^ 64 ∧ 6 < 2 ^ 63) :=
  ⟨by decide,
    ok_u64_arithmetic_bounds.2.1 5 6 7 (by decide) (by decide) (by decide) (by decide)⟩

/-! Claim C7: characterization of `Pattern::try_new`. -/

/-- Validation condition of one element in the `Pattern::try_new` loop. -/
def isInvalidPermElement : PatternElement → Bool
  | .permutation counter pop =>
      decide (counter.size ≤ 0 ∨ pop ≤ 0 ∨ counter.size < pop)
  | _ => false

theorem checkElements_eq (l : List PatternElement) :
    checkElements l =
      (if l.any isInvalidPermElement then .error .containsInvalidPermutation
       else .ok ()) := by
  induction l with
  | nil => simp [checkElements]
  | cons e rest ih =>
      cases e with
      | permutation c p =>
          by_cases hc : c.size ≤ 0 ∨ p ≤ 0 ∨ c.size < p
          · have hc2 : (c.size = 0 ∨ p = 0 ∨ c.size < p) := by omega
            simp [checkElements, isInvalidPermElement, hc, hc2]
          · have hc2 : ¬ (c.size = 0 ∨ p = 0 ∨ c.size < p) := by omega
            simp [checkElements, isInvalidPermElement, hc, hc2, ih]
      | one s => simp [checkElements, isInvalidPermElement, ih]
      | fixed s => simp [checkElements, isInvalidPermElement, ih]
      | wildcard => simp [checkElements, isInvalidPermElement, ih]
      | factorial c => simp [checkElements, isInvalidPermElement, ih]

theorem isInvalidPermElement_iff (x : PatternElement) :
    isInvalidPermElement x = true ↔
      ∃ c pop, x = .permutation c pop ∧ (c.size = 0 ∨ pop = 0 ∨ c.size < pop) := by
  cases x with
  | permutation c p =>
      simp only [isInvalidPermElement, decide_eq_true_eq]
      constructor
      · intro h
        exact ⟨c, p, rfl, by omega⟩
      · rintro ⟨c2, p2, heq, hcond⟩
        cases heq
        omega
  | one s => simp [isInvalidPermElement]
  | fixed s => simp [isInvalidPermElement]
  | wildcard => simp [isInvalidPermElement]
  | factorial c => simp [isInvalidPermElement]

/-- C7: `Pattern::try_new` (and so `TryFrom<Vec<PatternElement>>`) returns
`Err(NoShapeSequences)` exactly when the element list is empty, returns
`Err(ContainsInvalidPermutation)` exactly when the list is non-empty and
some `Permutation` element has an empty multiset or `pop` outside
`[1, multiset size]`, and otherwise returns `Ok` with the given
elements. -/
theorem tryNew_characterization (elements : List PatternElement) :
    (Pattern.tryNew elements = .error .noShapeSequences ↔ elements = []) ∧
    (Pattern.tryNew elements = .error .containsInvalidPermutation ↔
      (elements ≠ [] ∧ ∃ c pop, PatternElement.permutation c pop ∈ elements ∧
        (c.size = 0 ∨ pop = 0 ∨ c.size < pop))) ∧
    ((∃ p, Pattern.tryNew elements = .ok p ∧ p.elements = elements) ↔
      (elements ≠ [] ∧ ∀ c pop, PatternElement.permutation c pop ∈ elements →
        0 < c.size ∧ 0 < pop ∧ pop ≤ c.size)) := by
  by_cases he : elements.isEmpty
  · rw [List.isEmpty_iff] at he
    subst he
    refine ⟨by simp [Pattern.tryNew], by simp [Pattern.tryNew], by simp [Pattern.tryNew]⟩
  · have hne : elements ≠ [] := by
      intro h
      subst h
      simp at he
    by_cases hv : elements.any isInvalidPermElement
    · have htn : Pattern.tryNew elements = .error .containsInvalidPermutation := by
        simp [Pattern.tryNew, he, checkElements_eq, hv]
      refine ⟨by simp [htn, hne], ⟨fun _ => ⟨hne, ?_⟩, fun _ => htn⟩, ?_⟩
      · obtain ⟨x, hx, hinv⟩ := List.any_eq_true.mp hv
        obtain ⟨c, pop, rfl, hcond⟩ := (isInvalidPermElement_iff x).mp hinv
        exact ⟨c, pop, hx, hcond⟩
      · constructor
        · rintro ⟨p, hp, -⟩
          rw [htn] at hp
          cases hp
        · rintro ⟨-, hall⟩
          obtain ⟨x, hx, hinv⟩ := List.any_eq_true.mp hv
          obtain ⟨c, pop, rfl, hcond⟩ := (isInvalidPermElement_iff x).mp hinv
          have := hall c pop hx
          omega
    · have htn : Pattern.tryNew elements = .ok { elements := elements } := by
        simp [Pattern.tryNew, he, checkElements_eq, hv]
      refine ⟨by simp [htn, hne], ?_, ?_⟩
      · constructor
        · intro h
          rw [htn] at h
          cases h
        · rintro ⟨-, c, pop, hmem, hcond⟩
          exact absurd (List.any_eq_true.mpr
            ⟨_, hmem, (isInvalidPermElement_iff _).mpr ⟨c, pop, rfl, hcond⟩⟩) hv
      · constructor
        · rintro -
          refine ⟨hne, fun c pop hmem => ?_⟩
          by_contra hcon
          exact absurd (List.any_eq_true.mpr
            ⟨_, hmem, (isInvalidPermElement_iff _).mpr ⟨c, pop, rfl, by omega⟩⟩) hv
        · rintro -
          exact ⟨{ elements := elements }, htn, rfl⟩

/-! Claim C8: fuzzy wildcard expansion. -/

theorem take_set_succ {α : Type} :
    ∀ (l : List α) (i : Nat) (a : α), i < l.length →
      (l.set i a).take (i + 1) = l.take i ++ [a] := by
  intro l
  induction l with
  | nil => intro i a h; simp at h
  | cons x xs ih =>
      intro i a h
      cases i with
      | zero => simp
      | succ i₂ =>
          simp only [List.set_cons_succ, List.take_succ_cons, List.cons_append]
          rw [ih i₂ a (by simpa using h)]

theorem fuzzyProduct_known (s : Shape) (rest : List FuzzyShape) :
    fuzzyProduct (.known s :: rest) = (fuzzyProduct rest).map (s :: ·) := rfl

theorem fuzzyProduct_unknown (rest : List FuzzyShape) :
    fuzzyProduct (.unknown :: rest) =
      allShapes.flatMap (fun s => (fuzzyProduct rest).map (s :: ·)) := rfl

theorem fuzzyBuild_eq :
    ∀ (rest : List FuzzyShape) (index : Nat) (buffer : List Shape),
      buffer.length = index + rest.length →
      fuzzyBuild rest index buffer =
        (fuzzyProduct rest).map (fun tail => buffer.take index ++ tail) := by
  intro rest
  induction rest with
  | nil =>
      intro index buffer h
      simp only [List.length_nil, Nat.add_zero] at h
      simp [fuzzyBuild, fuzzyProduct, List.take_of_length_le (le_of_eq h)]
  | cons fs rest ih =>
      intro index buffer h
      have hidx : index < buffer.length := by
        rw [h]
        simp only [List.length_cons]
        omega
      have hlen : ∀ a : Shape, (buffer.set index a).length = index + 1 + rest.length := by
        intro a
        rw [List.length_set, h, List.length_cons]
        omega
      cases fs with
      | known s =>
          rw [show fuzzyBuild (FuzzyShape.known s :: rest) index buffer =
                fuzzyBuild rest (index + 1) (buffer.set index s) from rfl,
              fuzzyProduct_known,
              ih (index + 1) (buffer.set index s) (hlen s),
              take_set_succ buffer index s hidx, List.map_map]
          apply List.map_congr_left
          intro t _
          rw [List.append_assoc]
          rfl
      | unknown =>
          rw [show fuzzyBuild (FuzzyShape.unknown :: rest) index buffer =
                allShapes.flatMap
                  (fun shape => fuzzyBuild rest (index + 1) (buffer.set index shape))
                from rfl,
              fuzzyProduct_unknown, List.map_flatMap]
          have hfun : (fun shape => fuzzyBuild rest (index + 1) (buffer.set index shape)) =
              (fun s => List.map (fun tail => buffer.take index ++ tail)
                ((fuzzyProduct rest).map (s :: ·))) := by
            funext s
            rw [ih (index + 1) (buffer.set index s) (hlen s),
                take_set_succ buffer index s hidx, List.map_map]
            apply List.map_congr_left
            intro t _
            rw [List.append_assoc]
            rfl
          rw [hfun]

theorem fuzzyProduct_length (shapes : List FuzzyShape) :
    (fuzzyProduct shapes).length = 7 ^ (shapes.count .unknown) := by
  induction shapes with
  | nil => simp [fuzzyProduct]
  | cons fs rest ih =>
      cases fs with
      | known s =>
          rw [fuzzyProduct_known, List.length_map, ih, List.count_cons]
          simp
      | unknown =>
          rw [fuzzyProduct_unknown, List.length_flatMap]
          simp only [allShapes, List.map_cons, List.map_nil, Function.comp,
            List.length_map, List.sum_cons, List.sum_nil, ih, List.count_cons]
          simp
          ring

theorem fuzzyProduct_mem_length (shapes : List FuzzyShape) :
    ∀ s ∈ fuzzyProduct shapes, s.length = shapes.length := by
  induction shapes with
  | nil =>
      intro s hs
      simp [fuzzyProduct] at hs
      simp [hs]
  | cons fs rest ih =>
      intro s hs
      cases fs with
      | known k =>
          rw [fuzzyProduct_known] at hs
          obtain ⟨t, ht, rfl⟩ := List.mem_map.mp hs
          simp [ih t ht]
      | unknown =>
          rw [fuzzyProduct_unknown] at hs
          obtain ⟨a, _, hmem⟩ := List.mem_flatMap.mp hs
          obtain ⟨t, ht, rfl⟩ := List.mem_map.mp hmem
          simp [ih t ht]

/-- C8: for every non-empty fuzzy shape order, `expand_as_wildcard_walk`
visits exactly the Cartesian product over unknown positions with the 7
shapes (known positions held fixed, positions walked left to right), so
the number of visited sequences is `7 ^ #unknown`, each of the input's
length; in particular `[Known(T), Unknown, Known(O)]` expands to exactly
the 7 sequences `[T, s, O]`, one per shape `s`, in `all_iter` order. -/
theorem expandAsWildcardWalk_spec (shapes : List FuzzyShape)
    (h : shapes.isEmpty = false) :
    expandAsWildcardWalk shapes = some (fuzzyProduct shapes) ∧
    (fuzzyProduct shapes).length = 7 ^ (shapes.count .unknown) ∧
    (∀ s ∈ fuzzyProduct shapes, s.length = shapes.length) ∧
    expandAsWildcardWalk [.known .T, .unknown, .known .O] =
      some [[.T, .T, .O], [.T, .I, .O], [.T, .O, .O], [.T, .L, .O],
        [.T, .J, .O], [.T, .S, .O], [.T, .Z, .O]] := by
  refine ⟨?_, fuzzyProduct_length shapes, fuzzyProduct_mem_length shapes, by decide⟩
  unfold expandAsWildcardWalk
  rw [h]
  simp only [Bool.false_eq_true, if_false]
  rw [fuzzyBuild_eq shapes 0 (List.replicate shapes.length Shape.T) (by simp)]
  simp

/-- C8 witness: the theorem applied to the concrete order `[T, ?, O]`. -/
theorem expandAsWildcardWalk_spec_witness :
    ([FuzzyShape.known .T, .unknown, .known .O].isEmpty = false) ∧
    expandAsWildcardWalk [FuzzyShape.known .T, .unknown, .known .O] =
      some (fuzzyProduct [FuzzyShape.known .T, .unknown, .known .O]) :=
  ⟨by decide, (expandAsWildcardWalk_spec _ (by decide)).1⟩

/-! Claims C1, C2, C5: the two branches of `Aggregator::aggregate_`. -/

/-- The shape list built from the candidate stack at a `Complete` node
(first half of the Complete branch of `aggregate_`). -/
def candidateShapes {B : Type} (ag : Aggregator B) (results2 : List Nat) :
    List Shape :=
  results2.map (fun it =>
    (ag.indexedPieces.getD (it / ag.width) default).piece.shape)

/-- The per-piece data handed to `Aggregator::ok` at a `Complete` node:
piece, x offset, and the piece's cells merged into a blank board (second
half of the Complete branch of `aggregate_`). -/
def completeResults {B : Type} (ops : BoardOps B) (ag : Aggregator B)
    (results2 : List Nat) : List (PredefinedPieceToAggregate × Nat × B) :=
  results2.map (fun it =>
    let minoIndex := it / ag.width
    let lx := it % ag.width
    let pre := ag.indexedPieces.getD minoIndex default
    let board := pre.locations.foldl
      (fun merge location => ops.setAt merge (location.1 + (lx : Int), location.2))
      ops.blank
    (pre, lx, board))

/-- The item record examined by iteration `k` of the `ToItem` loop. -/
def itemAt {B : Type} (ag : Aggregator B) (nextItemId k : Nat) : ItemModel :=
  ag.nodes.items.getD (nextItemId + k) default

/-- The piece index (`predefine_index / width`) of loop iteration `k`. -/
def itemMinoIndex {B : Type} (ag : Aggregator B) (nextItemId k : Nat) : Nat :=
  (itemAt ag nextItemId k).predefineIndex / ag.width

/-- The predefined piece examined by loop iteration `k`. -/
def itemPredefine {B : Type} (ag : Aggregator B) (nextItemId k : Nat) :
    PredefinedPieceToAggregate :=
  ag.indexedPieces.getD (itemMinoIndex ag nextItemId k) default

/-- The mask `s` of the `ToItem` loop: the union, over the rows `y` the
piece occupies, of the filled-row masks recorded for the current depth. -/
def itemBlockedRows {B : Type} (ag : Aggregator B) (depth : Nat)
    (filled : Nat → Lines) (nextItemId k : Nat) : Lines :=
  (itemPredefine ag nextItemId k).ys.foldl
    (fun prev y => prev ||| filled (depth * ag.clippedBoard.height + y)) 0

/-- The rejection condition of the `ToItem` loop: the candidate piece's
`deleted_rows` intersect the blocked rows. -/
def itemRejected {B : Type} (ag : Aggregator B) (depth : Nat)
    (filled : Nat → Lines) (nextItemId k : Nat) : Prop :=
  ¬ (itemBlockedRows ag depth filled nextItemId k &&&
      (itemPredefine ag nextItemId k).deletedRows = 0)

instance {B : Type} (ag : Aggregator B) (depth : Nat) (filled : Nat → Lines)
    (nextItemId k : Nat) : Decidable (itemRejected ag depth filled nextItemId k) :=
  instDecidableNot

/-- The filled-row table passed to the recursive call on acceptance:
rows `[ (depth+1)·h, (depth+1)·h + h )` are rewritten from the depth-`depth`
entries and the piece's `using_rows_each_y` chunk. -/
def itemNextFilled {B : Type} (ag : Aggregator B) (depth : Nat)
    (filled : Nat → Lines) (nextItemId k : Nat) : Nat → Lines :=
  fun idx =>
    let height := ag.clippedBoard.height
    let ni := (depth + 1) * height
    if ni ≤ idx ∧ idx < ni + height then
      filled (depth * height + (idx - ni)) |||
        ag.usingRowsEachY.getD (itemMinoIndex ag nextItemId k * height + (idx - ni)) 0
    else filled idx

/-- The contribution of loop iteration `k` to the `ToItem` sum: 0 when
rejected, otherwise the recursive walk from the item's continuation with
the updated table and the piece pushed. -/
def itemContribution {B : Type} (ops : BoardOps B) (ag : Aggregator B)
    (checker : List Shape → Bool) (fuel depth : Nat) (filled : Nat → Lines)
    (results2 : List Nat) (nextItemId k : Nat) : Nat :=
  if itemRejected ag depth filled nextItemId k then 0
  else
    aggregateAux ops ag checker fuel (itemAt ag nextItemId k).nextIndexId
      (depth + 1) (itemNextFilled ag depth filled nextItemId k)
      (results2 ++ [(itemAt ag nextItemId k).predefineIndex])

theorem aggregateAux_complete_eq {B : Type} (ops : BoardOps B)
    (ag : Aggregator B) (checker : List Shape → Bool)
    (fuel indexId depth : Nat) (filled : Nat → Lines) (results2 : List Nat)
    (hnode : ag.nodes.indexes.getD indexId .abort = .complete) :
    aggregateAux ops ag checker (fuel + 1) indexId depth filled results2 =
      if checker (candidateShapes ag results2) then
        (if ag.ok ops fuel (completeResults ops ag results2) then 1 else 0)
      else 0 := by
  simp only [aggregateAux, hnode, candidateShapes, completeResults]

theorem aggregateAux_toItem_eq {B : Type} (ops : BoardOps B)
    (ag : Aggregator B) (checker : List Shape → Bool)
    (fuel indexId depth : Nat) (filled : Nat → Lines) (results2 : List Nat)
    (nextItemId itemLength : Nat)
    (hnode : ag.nodes.indexes.getD indexId .abort = .toItem nextItemId itemLength) :
    aggregateAux ops ag checker (fuel + 1) indexId depth filled results2 =
      ((List.range itemLength).map
        (itemContribution ops ag checker fuel depth filled results2 nextItemId)).sum := by
  have hstep : aggregateAux ops ag checker (fuel + 1) indexId depth filled results2 =
      (List.range itemLength).foldl (fun success k =>
        success + itemContribution ops ag checker fuel depth filled results2 nextItemId k) 0 := by
    simp only [aggregateAux, hnode]
    congr 1
    funext success k
    simp only [itemContribution, itemRejected, itemBlockedRows, itemPredefine,
      itemMinoIndex, itemAt, itemNextFilled]
    split
    · simp
    · rfl
  rw [hstep, foldl_add_map_sum]
  omega

theorem mem_allShapes (s : Shape) : s ∈ allShapes := by
  cases s <;> decide

theorem counterChecker_iff (scs : List ShapeCounter) (shapes : List Shape) :
    counterChecker scs shapes = true ↔
      ∃ sc ∈ scs, ∀ s : Shape, shapes.count s ≤ sc s := by
  simp only [counterChecker, List.any_eq_true, ShapeCounter.containsAll,
    List.all_eq_true, shapeCounterOf, decide_eq_true_eq]
  constructor
  · rintro ⟨sc, hmem, hall⟩
    exact ⟨sc, hmem, fun s => hall s (mem_allShapes s)⟩
  · rintro ⟨sc, hmem, hall⟩
    exact ⟨sc, hmem, fun s _ => hall s⟩

/-- C1: in the depth-first walk of `aggregate_`, a `ToItem` branch
contributes the sum over its item range, where an item's contribution is 0
with no recursion and no push exactly when the candidate piece's
`deleted_rows` intersect the union, over the rows `y` the piece occupies,
of the filled-row masks recorded for the current depth; on acceptance the
depth-`(d+1)` table entry for row `j` is the depth-`d` entry unioned with
the piece's `using_rows` exactly when the piece's `deleted_rows` contain
`j`. -/
theorem aggregate_toItem_dependency_pruning {B : Type} (ops : BoardOps B)
    (ag : Aggregator B) (checker : List Shape → Bool)
    (fuel indexId depth : Nat) (filled : Nat → Lines) (results2 : List Nat)
    (nextItemId itemLength : Nat)
    (hnode : ag.nodes.indexes.getD indexId .abort = .toItem nextItemId itemLength)
    (hrows : ag.usingRowsEachY =
      mkUsingRowsEachY ag.indexedPieces ag.clippedBoard.height) :
    (aggregateAux ops ag checker (fuel + 1) indexId depth filled results2 =
      ((List.range itemLength).map
        (itemContribution ops ag checker fuel depth filled results2 nextItemId)).sum) ∧
    (∀ k, itemRejected ag depth filled nextItemId k ↔
      ∃ r, (itemPredefine ag nextItemId k).deletedRows.testBit r ∧
        ∃ y ∈ (itemPredefine ag nextItemId k).ys,
          (filled (depth * ag.clippedBoard.height + y)).testBit r) ∧
    (∀ k j, itemMinoIndex ag nextItemId k < ag.indexedPieces.length →
      j < ag.clippedBoard.height →
      itemNextFilled ag depth filled nextItemId k
          ((depth + 1) * ag.clippedBoard.height + j) =
        filled (depth * ag.clippedBoard.height + j) |||
          (if (itemPredefine ag nextItemId k).deletedRows.testBit j then
            (itemPredefine ag nextItemId k).usingRows else 0)) := by
  refine ⟨aggregateAux_toItem_eq ops ag checker fuel indexId depth filled results2
    nextItemId itemLength hnode, ?_, ?_⟩
  · intro k
    have hs : ∀ r, (itemBlockedRows ag depth filled nextItemId k).testBit r =
        (itemPredefine ag nextItemId k).ys.any
          (fun y => (filled (depth * ag.clippedBoard.height + y)).testBit r) := by
      intro r
      rw [itemBlockedRows, foldl_lor_testBit]
      simp
    unfold itemRejected
    rw [land_eq_zero_iff]
    constructor
    · intro h
      push_neg at h
      obtain ⟨r, hsr, hdr⟩ := h
      rw [hs r] at hsr
      obtain ⟨y, hy, hf⟩ := List.any_eq_true.mp hsr
      exact ⟨r, hdr, y, hy, hf⟩
    · rintro ⟨r, hdr, y, hy, hf⟩
      intro hall
      exact hall r ⟨by rw [hs r]; exact List.any_eq_true.mpr ⟨y, hy, hf⟩, hdr⟩
  · intro k j hm hj
    simp only [itemNextFilled]
    rw [if_pos ⟨by omega, by omega⟩]
    have hsub : (depth + 1) * ag.clippedBoard.height + j -
        (depth + 1) * ag.clippedBoard.height = j := by omega
    rw [hsub, hrows, mkUsingRowsEachY_getD _ _ _ _ hm hj]
    rfl

/-- C1 witness: the characterization applied to the concrete aggregator at
its head `ToItem` node. -/
theorem aggregate_toItem_dependency_pruning_witness :
    (exampleAg.nodes.indexes.getD 0 .abort = .toItem 0 1) ∧
    (exampleAg.usingRowsEachY =
      mkUsingRowsEachY exampleAg.indexedPieces exampleAg.clippedBoard.height) ∧
    (aggregateAux unitOps exampleAg (fun _ => true) 10 0 0 (fun _ => 0) [] =
      ((List.range 1).map
        (itemContribution unitOps exampleAg (fun _ => true) 9 0 (fun _ => 0) [] 0)).sum) :=
  ⟨by decide, rfl,
    (aggregate_toItem_dependency_pruning unitOps exampleAg (fun _ => true) 9 0 0
      (fun _ => 0) [] 0 1 (by decide) rfl).1⟩

/-- C2 (amended): when the DFS reaches a `Complete` node, the candidate is
checked against the shape filter and, if it passes, the reachability
oracle `ok` is invoked directly on the candidate's placements — no
structural validity pass is interposed; the node contributes 1 exactly
when the oracle succeeds. -/
theorem aggregate_complete_invokes_oracle_directly {B : Type} (ops : BoardOps B)
    (ag : Aggregator B) (checker : List Shape → Bool)
    (fuel indexId depth : Nat) (filled : Nat → Lines) (results2 : List Nat)
    (hnode : ag.nodes.indexes.getD indexId .abort = .complete) :
    aggregateAux ops ag checker (fuel + 1) indexId depth filled results2 =
      if checker (candidateShapes ag results2) then
        (if ag.ok ops fuel (completeResults ops ag results2) then 1 else 0)
      else 0 :=
  aggregateAux_complete_eq ops ag checker fuel indexId depth filled results2 hnode

/-- C2 witness: the Complete branch evaluated on the concrete
aggregator. -/
theorem aggregate_complete_invokes_oracle_directly_witness :
    (exampleAg.nodes.indexes.getD 2 .abort = .complete) ∧
    (aggregateAux unitOps exampleAg (fun _ => true) 10 2 2 (fun _ => 0) [0, 1] =
      if (fun _ => true) (candidateShapes exampleAg [0, 1]) then
        (if exampleAg.ok unitOps 9 (completeResults unitOps exampleAg [0, 1]) then 1 else 0)
      else 0) :=
  ⟨by decide,
    aggregate_complete_invokes_oracle_directly unitOps exampleAg (fun _ => true) 9 2 2
      (fun _ => 0) [0, 1] (by decide)⟩

/-- C2 counterexample: the concrete aggregator counts its single complete
candidate (`pieceP` then `pieceQ`, each at offset 0) — `aggregate` returns
1 — although the structural validity pass prescribed by the spec rejects
that candidate (`pieceQ`'s `intercepted_rows` overlap `pieceP`'s
`using_rows`, and with `pieceQ`'s cells removed `pieceP` has no support),
so the engine performs no structural validity pass before the oracle. -/
theorem aggregate_complete_no_structural_pass_counterexample :
    exampleAg.aggregate unitOps 10 = 1 ∧
    completeResults unitOps exampleAg [0, 1] = [(pieceP, 0, ()), (pieceQ, 0, ())] ∧
    structuralValidityPass 1 2 [(pieceP, 0), (pieceQ, 0)] = false :=
  ⟨by decide, by decide, by decide⟩

/-- C5: in `aggregate_with_shape_counters`, a candidate reaching a
`Complete` node is passed to the reachability check iff at least one
caller-supplied shape multiset `contains_all` the multiset of the
candidate's shapes (every shape's count in the allowed multiset at least
the candidate's count); a rejected candidate contributes 0. -/
theorem aggregate_shape_counter_filter {B : Type} (ops : BoardOps B)
    (ag : Aggregator B) (shapeCounters : List ShapeCounter)
    (fuel indexId depth : Nat) (filled : Nat → Lines) (results2 : List Nat)
    (hnode : ag.nodes.indexes.getD indexId .abort = .complete) :
    aggregateAux ops ag (counterChecker shapeCounters) (fuel + 1) indexId depth
        filled results2 =
      if ∃ sc ∈ shapeCounters, ∀ s : Shape,
          (candidateShapes ag results2).count s ≤ sc s then
        (if ag.ok ops fuel (completeResults ops ag results2) then 1 else 0)
      else 0 := by
  rw [aggregateAux_complete_eq ops ag (counterChecker shapeCounters) fuel indexId
    depth filled results2 hnode]
  by_cases hc : ∃ sc ∈ shapeCounters, ∀ s : Shape,
      (candidateShapes ag results2).count s ≤ sc s
  · rw [if_pos ((counterChecker_iff shapeCounters (candidateShapes ag results2)).mpr hc),
      if_pos hc]
  · rw [if_neg ?hneg, if_neg hc]
    case hneg =>
      intro h
      exact hc ((counterChecker_iff shapeCounters (candidateShapes ag results2)).mp h)

/-- C5 witness: the shape filter evaluated on the concrete aggregator with
one permissive counter. -/
theorem aggregate_shape_counter_filter_witness :
    (exampleAg.nodes.indexes.getD 2 .abort = .complete) ∧
    (aggregateAux unitOps exampleAg (counterChecker [fun _ => 1]) 10 2 2
        (fun _ => 0) [0, 1] =
      if ∃ sc ∈ [fun _ => (1 : Nat)], ∀ s : Shape,
          (candidateShapes exampleAg [0, 1]).count s ≤ sc s then
        (if exampleAg.ok unitOps 9 (completeResults unitOps exampleAg [0, 1]) then 1 else 0)
      else 0) :=
  ⟨by decide,
    aggregate_shape_counter_filter unitOps exampleAg [fun _ => 1] 9 2 2
      (fun _ => 0) [0, 1] (by decide)⟩

/-! Claims C3, C4, C9: invariants of the reachability oracle. -/

/-- Well-formedness of one logged `can_reach` query: it was issued with
the given movement rules, on the post-line-clear board of its pre-board,
only under the guard `deleted_rows ⊆ deleted_key`, at the depth-adjusted
vertical offset, spawning the piece's shape in North orientation at the
given spawn position. -/
def queryWellFormed {B : Type} (ops : BoardOps B) (spawnPosition : BlPosition)
    (moveRules : MoveRulesModel)
    (results : List (PredefinedPieceToAggregate × Nat × B)) (q : Ok2Query B) :
    Prop :=
  let entry := results.getD q.pieceIndex (default, 0, ops.blank)
  let mino := entry.1
  let lx := entry.2.1
  let deletedKey := (ops.clearLines q.preBoard).2
  q.rules = moveRules ∧
  q.board = (ops.clearLines q.preBoard).1 ∧
  (mino.deletedRows &&& deletedKey = mino.deletedRows) ∧
  q.placement = ⟨mino.piece, ((lx : Int),
    (mino.ys.headD 0 : Int) -
      (popCount (filledUpTo (mino.ys.headD 0) &&& deletedKey) : Int))⟩ ∧
  q.spawn = ⟨⟨mino.piece.shape, .north⟩, spawnPosition⟩

/-- How one oracle step may evolve the threaded state: the memo set only
grows; the recursion log is extended by distinct masks that were fresh
(not yet memoized) when logged, are non-zero, and end up memoized; the
query log is extended by well-formed queries only. -/
def StateEvol {B : Type} (P : Ok2Query B → Prop) (st st2 : Ok2State B) : Prop :=
  (∀ m ∈ st.visited, m ∈ st2.visited) ∧
  (∃ dr, st2.recLog = st.recLog ++ dr ∧ dr.Nodup ∧
    ∀ m ∈ dr, m ∉ st.visited ∧ m ∈ st2.visited ∧ m ≠ 0) ∧
  (∃ dq, st2.queryLog = st.queryLog ++ dq ∧ ∀ q ∈ dq, P q)

theorem StateEvol.rfl {B : Type} (P : Ok2Query B → Prop) (st : Ok2State B) :
    StateEvol P st st :=
  ⟨fun _ hm => hm, ⟨[], by simp, List.nodup_nil, by simp⟩, ⟨[], by simp, by simp⟩⟩

theorem StateEvol.trans {B : Type} {P : Ok2Query B → Prop}
    {st0 st1 st2 : Ok2State B} (h1 : StateEvol P st0 st1)
    (h2 : StateEvol P st1 st2) : StateEvol P st0 st2 := by
  obtain ⟨mono1, ⟨dr1, hr1, hn1, hf1⟩, ⟨dq1, hq1, hp1⟩⟩ := h1
  obtain ⟨mono2, ⟨dr2, hr2, hn2, hf2⟩, ⟨dq2, hq2, hp2⟩⟩ := h2
  refine ⟨fun m hm => mono2 m (mono1 m hm), ⟨dr1 ++ dr2, ?_, ?_, ?_⟩,
    ⟨dq1 ++ dq2, ?_, ?_⟩⟩
  · rw [hr2, hr1, List.append_assoc]
  · refine List.Nodup.append hn1 hn2 (List.disjoint_left.mpr ?_)
    intro m hm1 hm2
    exact (hf2 m hm2).1 ((hf1 m hm1).2.1)
  · intro m hm
    rcases List.mem_append.mp hm with h | h
    · exact ⟨(hf1 m h).1, mono2 m (hf1 m h).2.1, (hf1 m h).2.2⟩
    · refine ⟨fun hc => (hf2 m h).1 (mono1 m hc), (hf2 m h).2.1, (hf2 m h).2.2⟩
  · rw [hq2, hq1, List.append_assoc]
  · intro q hq
    rcases List.mem_append.mp hq with h | h
    · exact hp1 q h
    · exact hp2 q h

theorem StateEvol.query {B : Type} {P : Ok2Query B → Prop} {st : Ok2State B}
    {q : Ok2Query B} (hq : P q) :
    StateEvol P st { st with queryLog := st.queryLog ++ [q] } := by
  refine ⟨fun m hm => hm, ⟨[], by simp, List.nodup_nil, by simp⟩,
    ⟨[q], by simp, by simpa using hq⟩⟩

theorem StateEvol.insert {B : Type} {P : Ok2Query B → Prop} {st : Ok2State B}
    {m : Nat} (hm : ¬ st.visited.contains m = true) (hm0 : m ≠ 0) :
    StateEvol P st
      { st with visited := m :: st.visited, recLog := st.recLog ++ [m] } := by
  have hmem : m ∉ st.visited := fun hc => hm (List.elem_iff.mpr hc)
  refine ⟨fun x hx => List.mem_cons_of_mem m hx,
    ⟨[m], by simp, List.nodup_singleton m, ?_⟩, ⟨[], by simp, by simp⟩⟩
  intro x hx
  rw [List.mem_singleton] at hx
  rw [hx]
  exact ⟨hmem, List.mem_cons_self m st.visited, hm0⟩

theorem ok2Loop_evol {B : Type} (ops : BoardOps B) (spawnPosition : BlPosition)
    (moveRules : MoveRulesModel)
    (results : List (PredefinedPieceToAggregate × Nat × B)) :
    ∀ (fuel : Nat) (board_ : B) (remaining rest2 : Nat) (st : Ok2State B),
      StateEvol (queryWellFormed ops spawnPosition moveRules results) st
        (ok2Loop ops spawnPosition moveRules results fuel board_ remaining
          rest2 st).2 := by
  intro fuel
  induction fuel with
  | zero => intro board_ remaining rest2 st; exact StateEvol.rfl _ st
  | succ fuel ih =>
      intro board_ remaining rest2 st
      rw [ok2Loop]
      by_cases hz : rest2 = 0
      · simp only [hz, if_true, reduceIte]
        exact StateEvol.rfl _ st
      · simp only [hz, reduceIte]
        set bit := lowBitU64 rest2 with hbit
        set index := trailingZeros bit with hindex
        set entry := results.getD index (default, 0, ops.blank) with hentry
        by_cases hguard : entry.1.deletedRows &&& (ops.clearLines board_).2 =
            entry.1.deletedRows
        · simp only [hguard, reduceIte]
          set q : Ok2Query B :=
            ⟨moveRules,
              ⟨entry.1.piece, ((entry.2.1 : Int),
                (entry.1.ys.headD 0 : Int) -
                  (popCount (filledUpTo (entry.1.ys.headD 0) &&&
                    (ops.clearLines board_).2) : Int))⟩,
              (ops.clearLines board_).1,
              ⟨⟨entry.1.piece.shape, .north⟩, spawnPosition⟩, index, board_⟩
            with hq
          have hPq : queryWellFormed ops spawnPosition moveRules results q := by
            refine ⟨Eq.refl _, Eq.refl _, hguard, Eq.refl _, Eq.refl _⟩
          have hstep : StateEvol (queryWellFormed ops spawnPosition moveRules results)
              st { st with queryLog := st.queryLog ++ [q] } := StateEvol.query hPq
          set st2 : Ok2State B := { st with queryLog := st.queryLog ++ [q] } with hst2
          by_cases hreach : ops.canReach moveRules q.placement q.board q.spawn = true
          · simp only [hreach, reduceIte]
            by_cases hlast : remaining - bit = 0
            · simp only [hlast, if_true, reduceIte]
              exact hstep
            · simp only [hlast, reduceIte]
              by_cases hvis : st2.visited.contains (remaining - bit) = true
              · simp only [hvis, reduceIte]
                exact hstep.trans (ih board_ remaining (rest2 - bit) st2)
              · simp only [hvis, reduceIte]
                set st3 : Ok2State B :=
                  { st2 with visited := (remaining - bit) :: st2.visited,
                             recLog := st2.recLog ++ [remaining - bit] } with hst3
                have hins : StateEvol (queryWellFormed ops spawnPosition moveRules results)
                    st2 st3 := StateEvol.insert hvis hlast
                rcases hrec : ok2Loop ops spawnPosition moveRules results fuel
                    (ops.merge board_ entry.2.2) (remaining - bit)
                    (remaining - bit) st3 with ⟨b, st4⟩
                have hrecEvol : StateEvol
                    (queryWellFormed ops spawnPosition moveRules results) st3 st4 := by
                  have := ih (ops.merge board_ entry.2.2) (remaining - bit)
                    (remaining - bit) st3
                  rw [hrec] at this
                  exact this
                cases b
                · simp only
                  exact ((hstep.trans hins).trans hrecEvol).trans
                    (ih board_ remaining (rest2 - bit) st4)
                · simp only
                  exact (hstep.trans hins).trans hrecEvol
          · simp only [hreach, reduceIte]
            exact hstep.trans (ih board_ remaining (rest2 - bit) st2)
        · simp only [hguard, reduceIte]
          exact ih board_ remaining (rest2 - bit) st

theorem okRun_evol {B : Type} (ag : Aggregator B) (ops : BoardOps B)
    (fuel : Nat) (results : List (PredefinedPieceToAggregate × Nat × B)) :
    StateEvol
      (queryWellFormed ops ag.spawnPosition (MoveRulesModel.srs .softdrop) results)
      ⟨[], [], []⟩ (ag.okRun ops fuel results).2 := by
  unfold Aggregator.okRun ok2
  exact ok2Loop_evol ops ag.spawnPosition (MoveRulesModel.srs .softdrop) results
    fuel ag.clippedBoard.board (fullMaskU64 results.length)
    (fullMaskU64 results.length) ⟨[], [], []⟩

/-- The query record built by one iteration of the `ok2` loop for the
lowest set bit of `rest2` on the board `board_`. -/
def stepQuery {B : Type} (ops : BoardOps B) (spawnPosition : BlPosition)
    (moveRules : MoveRulesModel)
    (results : List (PredefinedPieceToAggregate × Nat × B))
    (board_ : B) (rest2 : Nat) : Ok2Query B :=
  let bit := lowBitU64 rest2
  let index := trailingZeros bit
  let entry := results.getD index (default, 0, ops.blank)
  let deletedKey := (ops.clearLines board_).2
  ⟨moveRules,
    ⟨entry.1.piece, ((entry.2.1 : Int),
      (entry.1.ys.headD 0 : Int) -
        (popCount (filledUpTo (entry.1.ys.headD 0) &&& deletedKey) : Int))⟩,
    (ops.clearLines board_).1,
    ⟨⟨entry.1.piece.shape, .north⟩, spawnPosition⟩, index, board_⟩

/-- C4: within one top-level oracle invocation, the recursion log contains
no duplicates (each non-empty remaining-mask is recursed into at most
once), every recursed-into mask is non-zero and ends up in the memo set
(the memo set is populated before recursing, not after success or
failure); and when a piece is reachable and it was the last remaining
piece, the loop returns `true` immediately — no memo insertion and no
recursion, the state extended only by the issued query. -/
theorem ok_memo_discipline {B : Type} (ops : BoardOps B) (ag : Aggregator B)
    (fuel : Nat) (results : List (PredefinedPieceToAggregate × Nat × B)) :
    ((ag.okRun ops fuel results).2.recLog.Nodup ∧
      ∀ m ∈ (ag.okRun ops fuel results).2.recLog,
        m ≠ 0 ∧ m ∈ (ag.okRun ops fuel results).2.visited) ∧
    (∀ (fuelx : Nat) (board_ : B) (remaining rest2 : Nat) (st : Ok2State B),
      rest2 ≠ 0 →
      ((results.getD (trailingZeros (lowBitU64 rest2))
          (default, 0, ops.blank)).1.deletedRows &&& (ops.clearLines board_).2 =
        (results.getD (trailingZeros (lowBitU64 rest2))
          (default, 0, ops.blank)).1.deletedRows) →
      ops.canReach (MoveRulesModel.srs .softdrop)
          (stepQuery ops ag.spawnPosition (MoveRulesModel.srs .softdrop) results
            board_ rest2).placement
          (ops.clearLines board_).1
          (stepQuery ops ag.spawnPosition (MoveRulesModel.srs .softdrop) results
            board_ rest2).spawn = true →
      remaining - lowBitU64 rest2 = 0 →
      ok2Loop ops ag.spawnPosition (MoveRulesModel.srs .softdrop) results
          (fuelx + 1) board_ remaining rest2 st =
        (true, { st with queryLog := st.queryLog ++
          [stepQuery ops ag.spawnPosition (MoveRulesModel.srs .softdrop) results
            board_ rest2] })) := by
  constructor
  · obtain ⟨-, ⟨dr, hdr, hnodup, hfresh⟩, -⟩ := okRun_evol ag ops fuel results
    rw [List.nil_append] at hdr
    refine ⟨hdr ▸ hnodup, ?_⟩
    intro m hm
    rw [hdr] at hm
    exact ⟨(hfresh m hm).2.2, (hfresh m hm).2.1⟩
  · intro fuelx board_ remaining rest2 st hz hguard hreach hlast
    rw [ok2Loop]
    simp only [stepQuery] at hreach
    simp only [hz, hguard, hreach, hlast, reduceIte, stepQuery]

/-- C4 witness: the memo discipline at a concrete run, and the immediate
success on a concrete last remaining piece. -/
theorem ok_memo_discipline_witness :
    ((exampleAg.okRun unitOps 10 [(pieceP, 0, ()), (pieceQ, 0, ())]).2.recLog.Nodup ∧
      ∀ m ∈ (exampleAg.okRun unitOps 10 [(pieceP, 0, ()), (pieceQ, 0, ())]).2.recLog,
        m ≠ 0 ∧
          m ∈ (exampleAg.okRun unitOps 10 [(pieceP, 0, ()), (pieceQ, 0, ())]).2.visited) ∧
    ok2Loop unitOps exampleAg.spawnPosition (MoveRulesModel.srs .softdrop)
        [(pieceP, 0, ()), (pieceQ, 0, ())] 11 () 2 2 ⟨[], [], []⟩ =
      (true, ⟨[], [],
        [stepQuery unitOps exampleAg.spawnPosition (MoveRulesModel.srs .softdrop)
          [(pieceP, 0, ()), (pieceQ, 0, ())] () 2]⟩) :=
  ⟨(ok_memo_discipline unitOps exampleAg 10 [(pieceP, 0, ()), (pieceQ, 0, ())]).1,
    (ok_memo_discipline unitOps exampleAg 10 [(pieceP, 0, ()), (pieceQ, 0, ())]).2
      10 () 2 2 ⟨[], [], []⟩ (by decide) (by decide) (by decide) (by decide)⟩

/-- C3: every `can_reach` query issued within a top-level oracle
invocation was issued on the post-line-clear board of the issuing call's
board, only for a piece whose `deleted_rows` are all covered by the
`deleted_key` produced by that line clear, and at the vertical position
`ys[0]` minus the number of `deleted_key` rows strictly below `ys[0]`
(counted via `filled_up_to(ys[0]) & deleted_key`). -/
theorem ok_query_guard_and_offset {B : Type} (ops : BoardOps B)
    (ag : Aggregator B) (fuel : Nat)
    (results : List (PredefinedPieceToAggregate × Nat × B)) (q : Ok2Query B)
    (hq : q ∈ (ag.okRun ops fuel results).2.queryLog) :
    q.board = (ops.clearLines q.preBoard).1 ∧
    ((results.getD q.pieceIndex (default, 0, ops.blank)).1.deletedRows &&&
        (ops.clearLines q.preBoard).2 =
      (results.getD q.pieceIndex (default, 0, ops.blank)).1.deletedRows) ∧
    q.placement =
      ⟨(results.getD q.pieceIndex (default, 0, ops.blank)).1.piece,
        (((results.getD q.pieceIndex (default, 0, ops.blank)).2.1 : Int),
          ((results.getD q.pieceIndex (default, 0, ops.blank)).1.ys.headD 0 : Int) -
            (popCount (filledUpTo
                ((results.getD q.pieceIndex (default, 0, ops.blank)).1.ys.headD 0)
              &&& (ops.clearLines q.preBoard).2) : Int))⟩ := by
  obtain ⟨-, -, ⟨dq, hdq, hp⟩⟩ := okRun_evol ag ops fuel results
  rw [hdq, List.nil_append] at hq
  obtain ⟨-, hboard, hguard, hplacement, -⟩ := hp q hq
  exact ⟨hboard, hguard, hplacement⟩

/-- C3 witness: the guard and offset facts for the first query of a
concrete run. -/
theorem ok_query_guard_and_offset_witness :
    (stepQuery unitOps exampleAg.spawnPosition (MoveRulesModel.srs .softdrop)
        [(pieceP, 0, ()), (pieceQ, 0, ())] () 3 ∈
      (exampleAg.okRun unitOps 10 [(pieceP, 0, ()), (pieceQ, 0, ())]).2.queryLog) ∧
    (stepQuery unitOps exampleAg.spawnPosition (MoveRulesModel.srs .softdrop)
        [(pieceP, 0, ()), (pieceQ, 0, ())] () 3).board =
      (unitOps.clearLines
        (stepQuery unitOps exampleAg.spawnPosition (MoveRulesModel.srs .softdrop)
          [(pieceP, 0, ()), (pieceQ, 0, ())] () 3).preBoard).1 :=
  ⟨by decide,
    (ok_query_guard_and_offset unitOps exampleAg 10
      [(pieceP, 0, ()), (pieceQ, 0, ())] _ (by decide)).1⟩

/-- C9: every movement-rule reachability query issued by the oracle uses
the SRS kick table with softdrop allowed and spawns the piece's shape in
North orientation at the aggregator's fixed spawn position — the
caller-configured movement rules play no part, and `ok`'s verdict is a
function of the candidate, the board and the spawn position only. -/
theorem ok_queries_use_srs_softdrop_north_spawn {B : Type} (ops : BoardOps B)
    (ag : Aggregator B) (fuel : Nat)
    (results : List (PredefinedPieceToAggregate × Nat × B)) (q : Ok2Query B)
    (hq : q ∈ (ag.okRun ops fuel results).2.queryLog) :
    q.rules = MoveRulesModel.srs .softdrop ∧
    q.spawn = ⟨⟨(results.getD q.pieceIndex (default, 0, ops.blank)).1.piece.shape,
      .north⟩, ag.spawnPosition⟩ := by
  obtain ⟨-, -, ⟨dq, hdq, hp⟩⟩ := okRun_evol ag ops fuel results
  rw [hdq, List.nil_append] at hq
  obtain ⟨hrules, -, -, -, hspawn⟩ := hp q hq
  exact ⟨hrules, hspawn⟩

/-- C9 witness: the rules and spawn of the first query of a concrete
run. -/
theorem ok_queries_use_srs_softdrop_north_spawn_witness :
    (stepQuery unitOps exampleAg.spawnPosition (MoveRulesModel.srs .softdrop)
        [(pieceP, 0, ()), (pieceQ, 0, ())] () 3 ∈
      (exampleAg.okRun unitOps 10 [(pieceP, 0, ()), (pieceQ, 0, ())]).2.queryLog) ∧
    (stepQuery unitOps exampleAg.spawnPosition (MoveRulesModel.srs .softdrop)
        [(pieceP, 0, ()), (pieceQ, 0, ())] () 3).rules =
      MoveRulesModel.srs .softdrop :=
  ⟨by decide,
    (ok_queries_use_srs_softdrop_north_spawn unitOps exampleAg 10
      [(pieceP, 0, ()), (pieceQ, 0, ())] _ (by decide)).1⟩

/-! Claim C6: pattern expansion counts and dimensions. -/

theorem selections_length {α : Type} : ∀ l : List α,
    (selections l).length = l.length := by
  intro l
  induction l with
  | nil => rfl
  | cons x xs ih => simp [selections, ih]

theorem selections_mem_length {α : Type} : ∀ (l : List α) (p : α × List α),
    p ∈ selections l → p.2.length + 1 = l.length := by
  intro l
  induction l with
  | nil => intro p hp; simp [selections] at hp
  | cons x xs ih =>
      intro p hp
      simp only [selections, List.mem_cons] at hp
      rcases hp with rfl | hp
      · simp
      · obtain ⟨q, hq, rfl⟩ := List.mem_map.mp hp
        have := ih q hq
        simp only [List.length_cons]
        omega

theorem kpermutations_mem_length {α : Type} : ∀ (k : Nat) (l s : List α),
    s ∈ kpermutations k l → s.length = k := by
  intro k
  induction k with
  | zero =>
      intro l s hs
      simp only [kpermutations, List.mem_singleton] at hs
      simp [hs]
  | succ k ih =>
      intro l s hs
      simp only [kpermutations, List.mem_flatMap] at hs
      obtain ⟨p, hp, hs⟩ := hs
      obtain ⟨t, ht, rfl⟩ := List.mem_map.mp hs
      simp [ih p.2 t ht]

theorem sum_map_eq_length_mul {α : Type} (f : α → Nat) (c : Nat) :
    ∀ l : List α, (∀ x ∈ l, f x = c) → (l.map f).sum = l.length * c := by
  intro l
  induction l with
  | nil => simp
  | cons x xs ih =>
      intro h
      simp only [List.map_cons, List.sum_cons, List.length_cons]
      rw [h x (List.mem_cons_self x xs),
        ih (fun y hy => h y (List.mem_cons_of_mem x hy))]
      ring

theorem range'_prod_concat (s n : Nat) :
    (List.range' s (n + 1)).prod = (List.range' s n).prod * (s + n) := by
  rw [List.range'_concat]
  simp

theorem kpermutations_length {α : Type} : ∀ (k : Nat) (l : List α),
    k ≤ l.length →
    (kpermutations k l).length = (List.range' (l.length - k + 1) k).prod := by
  intro k
  induction k with
  | zero => intro l h; simp [kpermutations]
  | succ k ih =>
      intro l h
      simp only [kpermutations, List.length_flatMap]
      rw [sum_map_eq_length_mul _ ((List.range' (l.length - (k + 1) + 1) k).prod)
        (selections l) ?hc]
      case hc =>
        intro p hp
        have h2 := selections_mem_length l p hp
        simp only [Function.comp, List.length_map]
        rw [ih p.2 (by omega)]
        have heq : p.2.length - k + 1 = l.length - (k + 1) + 1 := by omega
        rw [heq]
      rw [selections_length, range'_prod_concat]
      have heq : l.length - (k + 1) + 1 + k = l.length := by omega
      rw [heq]
      ring

theorem toShapeList_length (c : ShapeCounter) :
    (ShapeCounter.toShapeList c).length = c.size := by
  simp [ShapeCounter.toShapeList, ShapeCounter.size, List.length_flatMap,
    Function.comp_def]

theorem elemSpec (e : PatternElement)
    (hperm : ∀ c pop, e = .permutation c pop →
      0 < c.size ∧ 0 < pop ∧ pop ≤ c.size)
    (hfact : ∀ c, e = .factorial c → 0 < c.size) :
    ∃ chunk n d, e.toShapesVec = some chunk ∧ e.lenShapesVec = some n ∧
      chunk.length = n ∧ e.dimShapes = some d ∧ ∀ s ∈ chunk, s.length = d := by
  cases e with
  | one s => exact ⟨[[s]], 1, 1, rfl, rfl, rfl, rfl, by simp⟩
  | fixed b =>
      exact ⟨[b.toShapeList], 1, b.len, rfl, rfl, rfl, rfl, by
        intro s hs
        rw [List.mem_singleton] at hs
        rw [hs]
        rfl⟩
  | wildcard =>
      refine ⟨allShapes.map (fun it => [it]), 7, 1, rfl, rfl, by simp [allShapes],
        rfl, ?_⟩
      intro s hs
      obtain ⟨x, -, rfl⟩ := List.mem_map.mp hs
      rfl
  | permutation c pop =>
      obtain ⟨hc, hp, hpc⟩ := hperm c pop rfl
      have hcond : 0 < pop ∧ pop ≤ c.size := ⟨hp, hpc⟩
      refine ⟨kpermutations pop c.toShapeList,
        (List.range' (c.size - pop + 1) pop).prod, pop, ?_, ?_, ?_, ?_, ?_⟩
      · simp [PatternElement.toShapesVec, hcond]
      · simp [PatternElement.lenShapesVec, hcond, calculatePermutationSize, hpc, hp]
      · rw [kpermutations_length pop c.toShapeList
          (by rw [toShapeList_length]; exact hpc), toShapeList_length]
      · simp [PatternElement.dimShapes, hcond]
      · exact fun s hs => kpermutations_mem_length pop _ s hs
  | factorial c =>
      have hc := hfact c rfl
      have h11 : c.size - c.size + 1 = 1 := by omega
      refine ⟨kpermutations c.size c.toShapeList, (List.range' 1 c.size).prod,
        c.size, rfl, ?_, ?_, rfl, ?_⟩
      · simp [PatternElement.lenShapesVec, calculatePermutationSize, hc, h11]
      · rw [kpermutations_length _ _ (by rw [toShapeList_length]),
          toShapeList_length, h11]
      · exact fun s hs => kpermutations_mem_length _ _ s hs

theorem collectSome_map_forall {α β : Type} (f : α → Option β) :
    ∀ l : List α, (∀ x ∈ l, ∃ y, f x = some y) →
      ∃ out, collectSome (l.map f) = some out ∧
        List.Forall₂ (fun x y => f x = some y) l out := by
  intro l
  induction l with
  | nil => exact fun _ => ⟨[], rfl, List.Forall₂.nil⟩
  | cons x xs ih =>
      intro h
      obtain ⟨y, hy⟩ := h x (List.mem_cons_self x xs)
      obtain ⟨out, hout, hfa⟩ := ih (fun z hz => h z (List.mem_cons_of_mem x hz))
      refine ⟨y :: out, ?_, List.Forall₂.cons hy hfa⟩
      rw [List.map_cons, hy]
      simp [collectSome, hout]

theorem collectSome_map_none {α β : Type} (f : α → Option β) :
    ∀ l : List α, (∃ x ∈ l, f x = none) → collectSome (l.map f) = none := by
  intro l
  induction l with
  | nil => simp
  | cons x xs ih =>
      rintro ⟨y, hy, hfy⟩
      rcases List.mem_cons.mp hy with rfl | hmem
      · rw [List.map_cons, hfy]
        rfl
      · rw [List.map_cons]
        cases hfx : f x with
        | none => rfl
        | some b => simp [collectSome, ih ⟨y, hmem, hfy⟩]

theorem forall₂_length_map {α : Type} : ∀ {chunks : List (List α)} {lens : List Nat},
    List.Forall₂ (fun chunk n => List.length chunk = n) chunks lens →
    chunks.map List.length = lens := by
  intro chunks lens h
  induction h with
  | nil => rfl
  | cons h1 _ ih => simp [h1, ih]

theorem cartProd_nil : cartProd [] = [[]] := rfl

theorem cartProd_cons (c : List (List Shape)) (rest : List (List (List Shape))) :
    cartProd (c :: rest) = c.flatMap (fun x => (cartProd rest).map (x ++ ·)) := rfl

theorem cartProd_length : ∀ xss : List (List (List Shape)),
    (cartProd xss).length = (xss.map List.length).prod := by
  intro xss
  induction xss with
  | nil => simp [cartProd_nil]
  | cons c rest ih =>
      rw [cartProd_cons, List.length_flatMap,
        sum_map_eq_length_mul _ ((cartProd rest).length) c
          (fun x _ => by simp), List.map_cons, List.prod_cons, ih]

theorem cartProd_mem_length : ∀ {chunks : List (List (List Shape))} {dims : List Nat},
    List.Forall₂ (fun chunk d => ∀ s ∈ chunk, List.length s = d) chunks dims →
    ∀ s ∈ cartProd chunks, s.length = dims.sum := by
  intro chunks dims h
  induction h with
  | nil =>
      intro s hs
      rw [cartProd_nil, List.mem_singleton] at hs
      simp [hs]
  | @cons c d chunksT dimsT h1 _ ih =>
      intro s hs
      rw [cartProd_cons] at hs
      obtain ⟨x, hx, hmem⟩ := List.mem_flatMap.mp hs
      obtain ⟨t, ht, rfl⟩ := List.mem_map.mp hmem
      simp [List.length_append, h1 x hx, ih t ht, List.sum_cons]

theorem walkBuild_cartProd : ∀ (chunks : List (List (List Shape))),
    chunks ≠ [] → ∀ buffer : List Shape,
    walkBuild chunks buffer = (cartProd chunks).map (buffer ++ ·) := by
  intro chunks
  induction chunks with
  | nil => intro h; exact absurd rfl h
  | cons c rest ih =>
      intro _ buffer
      cases rest with
      | nil =>
          show c.map (fun shapes => buffer ++ shapes) = _
          rw [cartProd_cons]
          simp [cartProd_nil]
      | cons c2 rest2 =>
          show c.flatMap (fun shapes => walkBuild (c2 :: rest2) (buffer ++ shapes)) = _
          rw [cartProd_cons, List.map_flatMap]
          have hfun : (fun shapes => walkBuild (c2 :: rest2) (buffer ++ shapes)) =
              (fun x => ((cartProd (c2 :: rest2)).map (x ++ ·)).map (buffer ++ ·)) := by
            funext s
            rw [ih (by simp) (buffer ++ s), List.map_map]
            apply List.map_congr_left
            intro t _
            simp [List.append_assoc]
          rw [hfun]

theorem elementsSpec : ∀ elements : List PatternElement,
    (∀ c pop, PatternElement.permutation c pop ∈ elements →
      0 < c.size ∧ 0 < pop ∧ pop ≤ c.size) →
    (∀ c, PatternElement.factorial c ∈ elements → 0 < c.size) →
    ∃ chunks lens dims,
      collectSome (elements.map PatternElement.toShapesVec) = some chunks ∧
      collectSome (elements.map PatternElement.lenShapesVec) = some lens ∧
      collectSome (elements.map PatternElement.dimShapes) = some dims ∧
      List.Forall₂ (fun e chunk => PatternElement.toShapesVec e = some chunk)
        elements chunks ∧
      List.Forall₂ (fun chunk n => List.length chunk = n) chunks lens ∧
      List.Forall₂ (fun chunk d => ∀ s ∈ chunk, List.length s = d) chunks dims := by
  intro elements
  induction elements with
  | nil => exact fun _ _ => ⟨[], [], [], rfl, rfl, rfl, .nil, .nil, .nil⟩
  | cons e rest ih =>
      intro hperm hfact
      obtain ⟨chunk, n, d, hc, hn, hcn, hd, hcd⟩ := elemSpec e
        (fun c pop he => hperm c pop
          (by rw [← he]; exact List.mem_cons_self e rest))
        (fun c he => hfact c (by rw [← he]; exact List.mem_cons_self e rest))
      obtain ⟨chunks, lens, dims, h1, h2, h3, h4, h5, h6⟩ := ih
        (fun c pop hm => hperm c pop (List.mem_cons_of_mem e hm))
        (fun c hm => hfact c (List.mem_cons_of_mem e hm))
      refine ⟨chunk :: chunks, n :: lens, d :: dims, ?_, ?_, ?_,
        .cons hc h4, .cons hcn h5, .cons hcd h6⟩
      · rw [List.map_cons, hc]
        simp [collectSome, h1]
      · rw [List.map_cons, hn]
        simp [collectSome, h2]
      · rw [List.map_cons, hd]
        simp [collectSome, h3]

theorem tryNew_ok_elements (elements : List PatternElement) (p : Pattern)
    (h : Pattern.tryNew elements = .ok p) :
    p.elements = elements ∧ elements ≠ [] ∧
      (∀ c pop, PatternElement.permutation c pop ∈ elements →
        0 < c.size ∧ 0 < pop ∧ pop ≤ c.size) := by
  by_cases he : elements.isEmpty
  · simp [Pattern.tryNew, he] at h
  · have hne : elements ≠ [] := by
      intro hh
      rw [hh] at he
      exact he rfl
    by_cases hv : elements.any isInvalidPermElement
    · simp [Pattern.tryNew, he, checkElements_eq, hv] at h
    · simp only [Pattern.tryNew, he, checkElements_eq, hv, Bool.false_eq_true,
        if_false, reduceIte, Except.ok.injEq] at h
      refine ⟨by rw [← h], hne, ?_⟩
      intro c pop hm
      by_contra hcon
      exact absurd (List.any_eq_true.mpr
        ⟨_, hm, (isInvalidPermElement_iff _).mpr ⟨c, pop, rfl, by omega⟩⟩) hv

/-- C6: for every valid (constructible) pattern, full expansion
(`to_shapes_vec` / `to_sequences`) produces exactly `len_shapes_vec`
sequences and every produced sequence has length `dim_shapes`, the
expansion being the Cartesian product, in element order, of each
element's denoted sequences concatenated positionally. The sequence count
agrees with `len_shapes_vec` as partial values — the two functions panic
together (expansion computes the capacity `len_shapes_vec` first) — and
whenever expansion completes, the count, the per-sequence length and the
Cartesian-product laws hold. -/
theorem pattern_expansion_counts (elements : List PatternElement) (p : Pattern)
    (htry : Pattern.tryNew elements = .ok p) :
    ((p.toShapesVec).map List.length = p.lenShapesVec) ∧
    (∀ v, p.toShapesVec = some v →
      (∃ n, p.lenShapesVec = some n ∧ v.length = n) ∧
      (∃ d, p.dimShapes = some d ∧ ∀ s ∈ v, s.length = d) ∧
      (∃ chunks,
        List.Forall₂ (fun e chunk => PatternElement.toShapesVec e = some chunk)
          p.elements chunks ∧
        v = cartProd chunks)) := by
  obtain ⟨hpe, hne, hperm⟩ := tryNew_ok_elements elements p htry
  have hEmpty : p.elements.isEmpty = false := by
    rw [hpe]
    cases elements with
    | nil => exact absurd rfl hne
    | cons a b => rfl
  by_cases hfact : ∀ c, PatternElement.factorial c ∈ elements → 0 < c.size
  · obtain ⟨chunks, lens, dims, h1, h2, h3, h4, h5, h6⟩ :=
      elementsSpec elements hperm hfact
    have hchne : chunks ≠ [] := by
      intro hh
      rw [hh] at h4
      cases h4
      exact hne rfl
    have hlen : p.lenShapesVec = some (lens.foldl (fun sum it => sum * it) 1) := by
      rw [Pattern.lenShapesVec, hEmpty]
      simp only [Bool.false_eq_true, if_false, reduceIte, hpe, h2]
    have hdim : p.dimShapes = some (dims.foldl (fun sum it => sum + it) 0) := by
      rw [Pattern.dimShapes, hEmpty]
      simp only [Bool.false_eq_true, if_false, reduceIte, hpe, h3]
    have hv : p.toShapesVec = some (cartProd chunks) := by
      rw [Pattern.toShapesVec, hEmpty]
      simp only [Bool.false_eq_true, if_false, reduceIte, hlen, hpe, h1, hdim]
      rw [walkBuild_cartProd chunks hchne []]
      simp
    refine ⟨?_, ?_⟩
    · rw [hv, hlen]
      have hmap : Option.map List.length (some (cartProd chunks)) =
          some ((cartProd chunks).length) := rfl
      rw [hmap]
      congr 1
      rw [cartProd_length, forall₂_length_map h5]
      exact List.prod_eq_foldl
    · intro v hvv
      have hveq : v = cartProd chunks := by
        rw [hv] at hvv
        exact (Option.some.inj hvv).symm
      subst hveq
      refine ⟨⟨lens.foldl (fun sum it => sum * it) 1, hlen, ?_⟩,
        ⟨dims.foldl (fun sum it => sum + it) 0, hdim, ?_⟩,
        ⟨chunks, hpe ▸ h4, rfl⟩⟩
      · rw [cartProd_length, forall₂_length_map h5]
        exact List.prod_eq_foldl
      · intro s hs
        rw [← List.sum_eq_foldl]
        exact cartProd_mem_length h6 s hs
  · push_neg at hfact
    obtain ⟨c, hcmem, hcle⟩ := hfact
    have hcz : c.size = 0 := by omega
    have helem : PatternElement.lenShapesVec (.factorial c) = none := by
      simp [PatternElement.lenShapesVec, calculatePermutationSize, hcz]
    have hlen : p.lenShapesVec = none := by
      rw [Pattern.lenShapesVec, hEmpty]
      simp only [Bool.false_eq_true, if_false, reduceIte, hpe]
      rw [collectSome_map_none _ elements ⟨_, hcmem, helem⟩]
    have hv : p.toShapesVec = none := by
      rw [Pattern.toShapesVec, hEmpty]
      simp only [Bool.false_eq_true, if_false, reduceIte, hlen]
    rw [hv, hlen]
    exact ⟨rfl, fun v hvv => absurd hvv (by simp)⟩

/-- Both the expansion and the count panic on a pattern holding
`Factorial` of an empty multiset: the capacity computation at the top of
`to_shapes_vec` hits the `assert!(0 < pop)` inside
`calculate_permutation_size`, exactly as `len_shapes_vec` itself does, so
the partial-value agreement above is not vacuous on that constructible
input. -/
theorem pattern_factorial_empty_both_panic :
    Pattern.tryNew [PatternElement.factorial (fun _ => 0)] =
      .ok { elements := [PatternElement.factorial (fun _ => 0)] } ∧
    Pattern.toShapesVec { elements := [PatternElement.factorial (fun _ => 0)] } =
      none ∧
    Pattern.lenShapesVec { elements := [PatternElement.factorial (fun _ => 0)] } =
      none :=
  ⟨rfl, rfl, rfl⟩

/-- C6 witness: the expansion law applied to the concrete one-element
pattern `[One(T)]`, where expansion completes. -/
theorem pattern_expansion_counts_witness :
    (Pattern.tryNew [PatternElement.one .T] =
      .ok { elements := [PatternElement.one .T] }) ∧
    ((Pattern.toShapesVec { elements := [PatternElement.one .T] }).map List.length =
      Pattern.lenShapesVec { elements := [PatternElement.one .T] }) :=
  ⟨rfl, (pattern_expansion_counts [PatternElement.one .T]
    { elements := [PatternElement.one .T] } rfl).1⟩

end BC
